import Mathlib

/-!
Verification of the devtrace stack-logging core (gotrace repository).

This file gives a shallow embedding, in Lean 4, of the data model and the
operations of the stack capture, filtering and signature resolution pipeline
of the repository (stack_logger.go and the trace context and configuration
files), together with theorems settling the specification claims about them.

Conventions of the embedding:
- Go strings are Lean `String`; `strings.Contains`, `strings.HasPrefix` and
  `strings.HasSuffix` are executable functions on the character lists.
- Go maps `map[string]interface{}` are association lists with pairwise
  distinct keys (the predicate `keysND`); map equality is extensional
  (equality of lookups), matching Go map semantics where iteration order is
  not observable for the properties at issue.
- Captured argument values (`interface{}`) are modelled by the opaque value
  universe `Val := Nat`: the code never inspects them.
- `time.Time` instants are modelled as `Nat`; the zero time is `none`.
- Machine integers are modelled as `Int` (no arithmetic in the embedded code
  comes anywhere near overflow; indices are `Nat`).
- Pointer identity of `*Frame` values is modelled by value equality of
  frames; the theorems that depend on it carry a `Nodup` hypothesis on the
  input frame list, matching the fact that a Go frame slice built by the
  collector holds pairwise distinct pointers.
- File system reads and the Go parser are external collaborators; they are
  modelled by explicit environment functions passed to the embedded code.
-/

namespace Devtrace

/-- Opaque universe of captured runtime values (Go `interface{}`). -/
abbrev Val := Nat

/-- Does the character list `l` begin with the character list `pre`?
Model of the prefix test underlying `strings.HasPrefix`. -/
def startsL : List Char → List Char → Bool
  | [], _ => true
  | _ :: _, [] => false
  | a :: pre, b :: l => a = b && startsL pre l

/-- Does the character list `l` contain `sub` as a contiguous substring?
Model of `strings.Contains`. -/
def containsL (sub : List Char) : List Char → Bool
  | [] => startsL sub []
  | c :: rest => startsL sub (c :: rest) || containsL sub rest

/-- Go `strings.Contains(s, sub)`. -/
def strContains (s sub : String) : Bool := containsL sub.data s.data

/-- Go `strings.HasPrefix(s, pre)`. -/
def strHasPre (s pre : String) : Bool := startsL pre.data s.data

/-- Go `strings.HasSuffix(s, suf)`. -/
def strEnds (s suf : String) : Bool := startsL suf.data.reverse s.data.reverse

/-- Lookup in a Go map modelled as an association list (first matching key;
with `keysND` the keys are pairwise distinct, so the choice is immaterial). -/
def lookupGM {α : Type} : List (String × α) → String → Option α
  | [], _ => none
  | (k, v) :: rest, key => if k = key then some v else lookupGM rest key

/-- Go map insertion `m[k] = v`: replace the binding of `k` if present,
otherwise append a new binding. -/
def insertGM {α : Type} : List (String × α) → String → α → List (String × α)
  | [], key, v => [(key, v)]
  | (k, w) :: rest, key, v =>
      if k = key then (key, v) :: rest else (k, w) :: insertGM rest key v

/-- The keys of the association list are pairwise distinct: the invariant of
every Go map value. -/
abbrev keysND {α : Type} (m : List (String × α)) : Prop := (m.map Prod.fst).Nodup

/-- The positional placeholder key `fmt.Sprintf("arg%d", i)`. -/
def posKey (i : Nat) : String := "arg" ++ Nat.repr i

/-- The key under which position `i` with declared parameter name `p` is
stored by `normalizeFrameArgs`: the parameter name, or the positional key
when the declared name is blank. -/
def writeName (p : String) (i : Nat) : String := if p = "" then posKey i else p

/-- The first loop of `normalizeFrameArgs` (stack_logger.go): walk the
declared parameter names, look up the positional key `arg<i>` in the
captured arguments and, when present, store its value under the parameter
name (or under the positional key itself when the name is blank). -/
def posAssign {α : Type} (args : List (String × α)) :
    List String → Nat → List (String × α) → List (String × α)
  | [], _, acc => acc
  | p :: rest, i, acc =>
      let acc1 := match lookupGM args (posKey i) with
        | none => acc
        | some v => insertGM acc (writeName p i) v
      posAssign args rest (i + 1) acc1

/-- The second loop of `normalizeFrameArgs`: copy every captured argument
whose key does not have the prefix "arg" into the normalized map. -/
def copyNonArg {α : Type} : List (String × α) → List (String × α) → List (String × α)
  | [], acc => acc
  | (k, v) :: rest, acc =>
      copyNonArg rest (if strHasPre k "arg" then acc else insertGM acc k v)

/-- The map computed by `normalizeFrameArgs` from a non-empty argument map
and a non-empty parameter-name list. -/
def normalizeArgsMap {α : Type} (args : List (String × α)) (params : List String) :
    List (String × α) :=
  copyNonArg args (posAssign args params 0 [])

/-- One activation record (types.go, `Frame`), with the diagnostic
`CallerInfo` field omitted (never read by the embedded operations). -/
structure Frame where
  function : String
  signature : String
  file : String
  line : Int
  args : Option (List (String × Val))
  startTime : Option Nat
  endTime : Option Nat
  duration : Int
deriving DecidableEq

/-- Replace the argument map of a frame. -/
def setArgs (fr : Frame) (m : Option (List (String × Val))) : Frame :=
  ⟨fr.function, fr.signature, fr.file, fr.line, m, fr.startTime, fr.endTime, fr.duration⟩

/-- Go `normalizeFrameArgs(frame, paramNames)` (stack_logger.go): a no-op on
a nil or empty argument map or an empty parameter list, otherwise the frame
with its arguments rewritten by `normalizeArgsMap`. -/
def normalizeFrameArgs (fr : Frame) (params : List String) : Frame :=
  match fr.args with
  | none => fr
  | some m =>
      if m = [] ∨ params = [] then fr
      else setArgs fr (some (normalizeArgsMap m params))

/-- Lookup of one captured argument of a frame (none when the map is nil or
the key is absent). -/
def frameArgLookup (fr : Frame) (k : String) : Option Val :=
  match fr.args with
  | none => none
  | some m => lookupGM m k

/-- Configuration of the enhanced stack logger (stack_logger.go,
`StackLoggerOptions`); the field `header` is the Go field `Prefix`. -/
structure StackLoggerOptions where
  header : String
  skip : Int
  limit : Int
  showSnippet : Int
  onlyApp : Bool
  preferApp : Bool
  appPattern : String
  showMeta : Bool
  ascending : Bool
deriving DecidableEq

/-- The same options with the `Ascending` flag replaced. -/
def withAscending (o : StackLoggerOptions) (b : Bool) : StackLoggerOptions :=
  ⟨o.header, o.skip, o.limit, o.showSnippet, o.onlyApp, o.preferApp,
   o.appPattern, o.showMeta, b⟩

/-- Is the frame kept by the self-filtering step of `filterFrames`? The Go
code skips every frame whose function names `devtrace.` or `runtime.` or
whose file path names `devtrace`. -/
def keepFrame (f : Frame) : Bool :=
  !(strContains f.function "devtrace." || strContains f.file "devtrace" ||
    strContains f.function "runtime.")

/-- Self-filtering step of `filterFrames`. -/
def dropInternal (frames : List Frame) : List Frame := frames.filter keepFrame

/-- The inner skip loop of the preferApp mixing step of `filterFrames`:
starting at index `oi`, advance past entries of `F` until just after the
first entry equal to `target` (pointer comparison in Go), or to the end of
`F`. The fuel argument bounds the scan by the length of `F`. -/
def skipScanAux (F : List Frame) (target : Frame) : Nat → Nat → Nat
  | 0, oi => oi
  | fuel + 1, oi =>
      if h : oi < F.length then
        if F.get ⟨oi, h⟩ = target then oi + 1 else skipScanAux F target fuel (oi + 1)
      else oi

/-- The inner skip loop of the preferApp mixing step, at full fuel. -/
def skipScan (F : List Frame) (target : Frame) (oi : Nat) : Nat :=
  skipScanAux F target F.length oi

/-- The skip scan as run at the end of each iteration of the mixing loop:
it scans only when at least one application frame has been added
(`0 < ai`), with the most recently added application frame as target. The
out-of-range lookup is unreachable from `mixFrames` (the loop keeps
`ai ≤ A.length`); Go indexes the slice directly. -/
def tailSkip (A F : List Frame) (ai oi : Nat) : Nat :=
  if 0 < ai then
    match A.get? (ai - 1) with
    | some t => skipScan F t oi
    | none => oi
  else oi

/-- The preferApp mixing loop of `filterFrames` (stack_logger.go): `A` is
the list of application frames, `F` the whole filtered list, `ai`/`oi` the
two indices and `result` the accumulator. Each iteration prefers the next
application frame, otherwise adds the next non-application frame, and then
runs the skip scan for the most recently added application frame. The fuel
argument makes the recursion structural; `mixFrames` supplies fuel that is
never exhausted (the Go loop terminates whenever `A` is non-empty, which is
the only situation in which it is entered). -/
def mixLoop (A F : List Frame) (lim : Int) (pat : String) :
    Nat → Nat → Nat → List Frame → List Frame
  | 0, _, _, result => result
  | fuel + 1, ai, oi, result =>
      if (result.length : Int) < lim ∧ (ai < A.length ∨ oi < F.length) then
        if h1 : ai < A.length then
          let fr := A.get ⟨ai, h1⟩
          mixLoop A F lim pat fuel (ai + 1) (skipScan F fr oi) (result ++ [fr])
        else
          match F.get? oi with
          | some fo =>
              if strContains fo.file pat then
                mixLoop A F lim pat fuel ai (tailSkip A F ai oi) result
              else
                mixLoop A F lim pat fuel ai (tailSkip A F ai (oi + 1)) (result ++ [fo])
          | none => mixLoop A F lim pat fuel ai (tailSkip A F ai oi) result
      else result

/-- The preferApp mixing step of `filterFrames`, entered with both indices
at zero and an empty accumulator. -/
def mixFrames (A F : List Frame) (lim : Int) (pat : String) : List Frame :=
  mixLoop A F lim pat (A.length + F.length + 1) 0 0 []

/-- The application frames of a filtered list: those whose file path
contains the configured application pattern. -/
def appOf (pat : String) (filtered : List Frame) : List Frame :=
  filtered.filter (fun f => strContains f.file pat)

/-- The app-specific filtering step of `filterFrames`: with `onlyApp` keep
only application frames (when any exist), else with `preferApp` run the
mixing loop (when any application frame exists), else leave the list
unchanged. -/
def applyAppFilter (opts : StackLoggerOptions) (filtered : List Frame) : List Frame :=
  if opts.onlyApp || opts.preferApp then
    let appFrames := appOf opts.appPattern filtered
    if appFrames ≠ [] ∧ opts.onlyApp then appFrames
    else if appFrames ≠ [] ∧ opts.preferApp then
      mixFrames appFrames filtered opts.limit opts.appPattern
    else filtered
  else filtered

/-- The effective display limit of `filterFrames`: a configured limit that
is not positive or exceeds five is treated as five. -/
def clampLimit (l : Int) : Int :=
  let c := if l ≤ 0 then 5 else l
  if 5 < c then 5 else c

/-- The bounding step of `filterFrames`: when the list is longer than the
effective limit, keep only its last (most recent) `clampLimit l` entries. -/
def limitStage (l : Int) (filtered : List Frame) : List Frame :=
  let cl := clampLimit l
  if cl < (filtered.length : Int) then filtered.drop (filtered.length - cl.toNat)
  else filtered

/-- Go `filterFrames` (stack_logger.go): self-filtering, app preference,
bounding to the effective limit keeping the tail, and finally reversal when
`Ascending` is false. -/
def filterFrames (opts : StackLoggerOptions) (frames : List Frame) : List Frame :=
  if frames.isEmpty then frames
  else
    let limited := limitStage opts.limit (applyAppFilter opts (dropInternal frames))
    if opts.ascending then limited else limited.reverse

/-- The explicit, call-scoped stack of frames (types.go, `TraceContext`). -/
structure TraceContext where
  frames : List Frame
  depth : Int
  startAt : Nat
deriving DecidableEq

/-- Go `NewTraceContext()`: empty stack, depth zero, started now. -/
def newTraceContext (now : Nat) : TraceContext := ⟨[], 0, now⟩

/-- Go `(*TraceContext).Enter` on a possibly nil receiver: a no-op on nil,
otherwise push the frame at the tail and increment the depth. -/
def tcEnter (tc : Option TraceContext) (f : Frame) : Option TraceContext :=
  match tc with
  | none => none
  | some t => some ⟨t.frames ++ [f], t.depth + 1, t.startAt⟩

/-- The frame returned by `Leave`: end time stamped with the current time,
and the duration computed only when the start time was set. -/
def stampLeave (fr : Frame) (now : Nat) : Frame :=
  ⟨fr.function, fr.signature, fr.file, fr.line, fr.args, fr.startTime, some now,
   match fr.startTime with
   | some st => (now : Int) - (st : Int)
   | none => fr.duration⟩

/-- Go `(*TraceContext).Leave` on a possibly nil receiver: nil and empty
stacks return none and leave the context unchanged; otherwise the tail
frame is removed, stamped and returned. -/
def tcLeave (tc : Option TraceContext) (now : Nat) : Option TraceContext × Option Frame :=
  match tc with
  | none => (none, none)
  | some t =>
      match t.frames.getLast? with
      | none => (some t, none)
      | some fr => (some ⟨t.frames.dropLast, t.depth - 1, t.startAt⟩, some (stampLeave fr now))

/-- Go `(*TraceContext).Stack` on a possibly nil receiver: an empty list on
nil, otherwise an independent copy of the frame stack. -/
def tcStack (tc : Option TraceContext) : List Frame :=
  match tc with
  | none => []
  | some t => t.frames

/-- Go `(*TraceContext).GetCurrentFrame` on a possibly nil receiver. -/
def tcCurrentFrame (tc : Option TraceContext) : Option Frame :=
  match tc with
  | none => none
  | some t => t.frames.getLast?

/-- The process-wide mutable state of the context package: the lazily
installed global trace context (nil until `InitGlobalContext` runs). -/
structure GlobalState where
  globalContext : Option TraceContext
deriving DecidableEq

/-- Go `InitGlobalContext`: install a fresh context unless one is already
installed. -/
def InitGlobalContext (s : GlobalState) (now : Nat) : GlobalState :=
  match s.globalContext with
  | some _ => s
  | none => ⟨some (newTraceContext now)⟩

/-- The context carrier seen by `FromContext`: a nil `context.Context`, a
context carrying no trace-context value, or one carrying a trace context. -/
inductive Carrier where
  | nilCtx
  | noValue
  | withValue (tc : TraceContext)
deriving DecidableEq

/-- A pointer to a trace context: either the installed global context (so
mutations through it are globally visible) or a detached context value (a
fresh allocation from `GetGlobalContext` on an uninitialized global, or a
context carried by value in the carrier). -/
inductive CtxRef where
  | global
  | localRef (tc : TraceContext)
deriving DecidableEq

/-- Go `FromContext`: a carried trace context is returned directly; a nil
carrier or a carrier without a value falls back to `GetGlobalContext`,
which returns the installed global context, or a fresh detached context
when none is installed (it does not install it). -/
def fromContextRef (ctx : Carrier) (s : GlobalState) (now : Nat) : CtxRef :=
  match ctx with
  | .withValue tc => .localRef tc
  | _ =>
      match s.globalContext with
      | some _ => .global
      | none => .localRef (newTraceContext now)

/-- Dereference a context pointer in the given global state. -/
def refRead (s : GlobalState) (r : CtxRef) : Option TraceContext :=
  match r with
  | .global => s.globalContext
  | .localRef tc => some tc

/-- `Enter` through a context pointer: entering through the global pointer
updates the installed global context; entering through a detached pointer
updates only the detached value. -/
def refEnter (s : GlobalState) (r : CtxRef) (f : Frame) : GlobalState × CtxRef :=
  match r with
  | .global => (⟨tcEnter s.globalContext f⟩, .global)
  | .localRef tc =>
      (s, .localRef (match tcEnter (some tc) f with
        | some t => t
        | none => tc))

/-- `Stack` through a context pointer. -/
def refStack (s : GlobalState) (r : CtxRef) : List Frame := tcStack (refRead s r)

/-- Go `GlobalStack()`: the stack of `GetGlobalContext()` (which is the
installed global context, or a fresh empty context when none is
installed). -/
def GlobalStack (s : GlobalState) (now : Nat) : List Frame :=
  match s.globalContext with
  | some g => tcStack (some g)
  | none => tcStack (some (newTraceContext now))

/-- Go `GlobalEnter`: initialize the global context if needed, then push
the frame onto it. -/
def GlobalEnter (s : GlobalState) (f : Frame) (now : Nat) : GlobalState :=
  match (InitGlobalContext s now).globalContext with
  | some g => ⟨tcEnter (some g) f⟩
  | none => InitGlobalContext s now

/-- One cached function entry of the signature resolver
(stack_logger.go, `functionSignature`). -/
structure FunctionSignature where
  name : String
  startLine : Int
  endLine : Int
  signature : String
  params : List String
deriving DecidableEq

/-- One top-level declaration of a parsed Go source file, as seen by
`parseFileSignatures`: a function declaration (with its name, inclusive
line span, rendered signature and ordered parameter names, as extracted
from the syntax tree) or any other declaration, which the loop skips. -/
inductive GoDecl where
  | funcDecl (name : String) (startLine endLine : Int) (signature : String)
      (params : List String)
  | otherDecl
deriving DecidableEq

/-- The environment of the signature resolver: reading and parsing a file
path yields its top-level declarations, or none when the file is unreadable
or unparseable. This models `os.ReadFile` plus `parser.ParseFile`. -/
def ParseEnv := String → Option (List GoDecl)

/-- The body of the extraction loop of `parseFileSignatures`. -/
def declToSig : GoDecl → Option FunctionSignature
  | .funcDecl n s e sig ps => some ⟨n, s, e, sig, ps⟩
  | .otherDecl => none

/-- Go `parseFileSignatures`: none when the file is unreadable or fails to
parse, otherwise the function signatures of all top-level function
declarations, in file order. -/
def parseFileSignatures (env : ParseEnv) (file : String) : Option (List FunctionSignature) :=
  match env file with
  | none => none
  | some decls => some (decls.filterMap declToSig)

/-- The lookup loop of `getSignatureForLocation`: return the first entry
whose span contains the line and, when both a candidate function name and
a declared name are present, whose declared name is a suffix of the
candidate. -/
def findSig (line : Int) (functionName : String) :
    List FunctionSignature → Option FunctionSignature
  | [] => none
  | fn :: rest =>
      if line < fn.startLine ∨ fn.endLine < line then findSig line functionName rest
      else if functionName ≠ "" ∧ fn.name ≠ "" ∧ strEnds functionName fn.name = false then
        findSig line functionName rest
      else some fn

/-- Go `getSignatureForLocation` with the per-file cache elided (the cache
memoizes exactly `parseFileSignatures env file`, so it is semantically
transparent): none on an empty path or a non-positive line, none when the
file does not parse, otherwise the lookup loop over the parsed entries. -/
def getSignatureForLocation (env : ParseEnv) (file : String) (line : Int)
    (functionName : String) : Option FunctionSignature :=
  if file = "" ∨ line ≤ 0 then none
  else
    match parseFileSignatures env file with
    | none => none
    | some fns => findSig line functionName fns

/-- Two function entries have non-overlapping line spans. The Go parser
guarantees this for the top-level function declarations of one file, which
is what `parseFileSignatures` extracts. -/
abbrev spanDisjoint (a b : FunctionSignature) : Prop :=
  a.endLine < b.startLine ∨ b.endLine < a.startLine

/-- One argument value passed to a logging call: an ordinary value or a
`*DebugVars` value (types.go), which `LogWithStack` separates out. -/
inductive LogVal where
  | plain (v : Val)
  | debug (vars : List (String × Val))
deriving DecidableEq

/-- Observable side effects of one `LogWithStack` call: a call into the
logging backend, a capture of the live call stack through runtime
introspection, or a read of a source file (for a snippet or for signature
parsing). -/
inductive Effect where
  | logCall (level msg : String) (args : List LogVal)
  | runtimeCapture
  | fileRead (path : String)
deriving DecidableEq

/-- Go `filepath.Base`: the last element of the path after removing
trailing slashes; "." for an empty path, "/" for a path of slashes. -/
def baseName (s : String) : String :=
  if s = "" then "."
  else
    let t := (s.data.reverse.dropWhile (fun c => c = '/')).reverse
    if t = [] then "/"
    else ⟨(t.reverse.takeWhile (fun c => c ≠ '/')).reverse⟩

/-- Go `strings.TrimRight(s, "\n")`. -/
def trimNLRight (s : String) : String :=
  ⟨(s.data.reverse.dropWhile (fun c => c = '\n')).reverse⟩

/-- Go `getCodeSnippet` (stack_logger.go) over a file system modelled as a
map from path to the list of lines: an immediate empty result when no
context lines are requested (no file access), an error (none) when the
file is unreadable or the line is out of range, otherwise the rendered
window of lines with the target line marked. The effect list records the
file read. -/
def getCodeSnippet (fs : String → Option (List String)) (filename : String)
    (line : Int) (contextLines : Int) : Option String × List Effect :=
  if contextLines ≤ 0 then (some "", [])
  else
    match fs filename with
    | none => (none, [Effect.fileRead filename])
    | some lines =>
        if line ≤ 0 ∨ (lines.length : Int) < line then (none, [Effect.fileRead filename])
        else
          let start : Int := max 0 (line - contextLines - 1)
          let stop : Int := min (lines.length : Int) (line + contextLines)
          let render := fun (i : Nat) =>
            let lineNum := i + 1
            let marker := if (lineNum : Int) = line then ">" else " "
            "      " ++ marker ++ " " ++ Nat.repr lineNum ++ " " ++ lines.getD i "" ++ "\n"
          (some (trimNLRight (String.join ((List.range' start.toNat (stop.toNat - start.toNat)).map render))),
           [Effect.fileRead filename])

/-- Go `DebugVars.String` (types.go), with the quoting of keys and the
rendering of opaque values supplied by the environment. -/
def dvString (q : String → String) (vs : Val → String) (m : List (String × Val)) : String :=
  if m = [] then "\x7b\x7d"
  else "\x7b" ++ String.intercalate ", " (m.map (fun kv => q kv.1 ++ ": " ++ vs kv.2)) ++ "\x7d"

/-- Replace the signature of a frame. -/
def setSignature (fr : Frame) (sig : String) : Frame :=
  ⟨fr.function, sig, fr.file, fr.line, fr.args, fr.startTime, fr.endTime, fr.duration⟩

/-- Go `resolveFrameSignature`: an already resolved signature is returned
as is; otherwise the resolver is consulted, and on success the signature
is cached onto the frame and its arguments are normalized with the
resolved parameter names; on a miss the raw function name is used. The
effect list records the read of the source file by the resolver (the
per-file cache of the Go code is elided, as in
`getSignatureForLocation`). -/
def resolveFrameSignature (env : ParseEnv) (fr : Frame) : String × Frame × List Effect :=
  if fr.signature ≠ "" then (fr.signature, fr, [])
  else
    let effs := if fr.file = "" ∨ fr.line ≤ 0 then [] else [Effect.fileRead fr.file]
    match getSignatureForLocation env fr.file fr.line fr.function with
    | some fnSig =>
        (fnSig.signature, normalizeFrameArgs (setSignature fr fnSig.signature) fnSig.params, effs)
    | none => (fr.function, fr, effs)

/-- Go `shortFunctionName`: trim everything up to the last slash. -/
def shortFunctionName (name : String) : String :=
  if name = "" then ""
  else ⟨(name.data.reverse.takeWhile (fun c => c ≠ '/')).reverse⟩

/-- Go `shortFrameLabel`: the portion of the resolved signature before the
opening parenthesis, or the short function name when no signature
resolves. -/
def shortFrameLabel (env : ParseEnv) (fr : Frame) : String :=
  let sig := (resolveFrameSignature env fr).1
  if sig ≠ "" then ⟨sig.data.takeWhile (fun c => c ≠ '(')⟩
  else shortFunctionName fr.function

/-- Go `buildRouteLine`: the flow from the outermost shown frame to the
current one, with the special cases for blank and equal endpoints. -/
def buildRouteLine (env : ParseEnv) (frames : List Frame) : String :=
  match frames with
  | [] => ""
  | f :: rest =>
      let origin := shortFrameLabel env f
      let current := shortFrameLabel env (rest.getLastD f)
      if origin = "" ∧ current = "" then ""
      else if origin = "" then "Route: → " ++ current
      else if current = "" then "Route: " ++ origin ++ " →"
      else if origin = current then "Route: " ++ current
      else "Route: " ++ origin ++ " → " ++ current

/-- The external collaborators of the enhanced logger: the file system (as
lines per path), the Go parser, the live runtime stack (the frames that
`runtime.Callers` would deliver after the configured skip, already
converted), and the rendering primitives of the fmt package. -/
structure EnhancedWorld where
  fsLines : String → Option (List String)
  parseEnv : ParseEnv
  runtimeFrames : List Frame
  sprintf : String → List LogVal → String
  quoteStr : String → String
  valStr : Val → String
  durStr : Int → String

/-- Go `formatFrame`: the numbered header line, the optional code snippet,
the optional captured-variables line and the optional timing line, joined
by newlines, together with the file-read effects incurred. -/
def formatFrame (w : EnhancedWorld) (opts : StackLoggerOptions) (index : Nat)
    (fr : Frame) : String × List Effect :=
  let r := resolveFrameSignature w.parseEnv fr
  let displayName := if r.1 = "" then "<anonymous>" else r.1
  let fr1 := r.2.1
  let header := "  " ++ Nat.repr (index + 1) ++ ". " ++ baseName fr1.file ++ ":" ++
    toString fr1.line ++ " → " ++ displayName
  let sn := if 0 < opts.showSnippet ∧ fr1.file ≠ "" then
      getCodeSnippet w.fsLines fr1.file fr1.line opts.showSnippet
    else (some "", [])
  let snippetParts := match sn.1 with
    | some s => if s ≠ "" then [s] else []
    | none => []
  let varParts := match fr1.args with
    | some m => if m ≠ [] then ["     Vars: " ++ dvString w.quoteStr w.valStr m] else []
    | none => []
  let timeParts := if 0 < fr1.duration ∧ opts.showMeta then
      ["     Time: " ++ w.durStr fr1.duration] else []
  (String.intercalate "\n" ([header] ++ snippetParts ++ varParts ++ timeParts),
   r.2.2 ++ sn.2)

/-- The per-frame formatting loop of `LogWithStack`. -/
def renderFrames (w : EnhancedWorld) (opts : StackLoggerOptions) :
    Nat → List Frame → List String × List Effect
  | _, [] => ([], [])
  | i, f :: rest =>
      let x := formatFrame w opts i f
      let y := renderFrames w opts (i + 1) rest
      (x.1 :: y.1, x.2 ++ y.2)

/-- Go `getStackFrames`: the snapshot of the trace context obtained from
the carrier when it is non-empty, otherwise the live runtime stack (an
observable runtime capture). -/
def getStackFramesM (w : EnhancedWorld) (gs : GlobalState) (now : Nat)
    (ctx : Carrier) : List Frame × List Effect :=
  let frames := refStack gs (fromContextRef ctx gs now)
  if frames ≠ [] then (frames, [])
  else (w.runtimeFrames, [Effect.runtimeCapture])

/-- The global configuration (devtrace.go, `DevTraceConfig`). -/
structure DevTraceConfig where
  enabled : Bool
  stackLimit : Int
  showArgs : Bool
  showTiming : Bool
  showSnippet : Int
  appPattern : String
  debugLevel : Int
deriving DecidableEq

/-- Is a logging argument a `*DebugVars` value? -/
def isDebugArg : LogVal → Bool
  | .debug _ => true
  | .plain _ => false

/-- Go `LogWithStack` (stack_logger.go) as a trace of observable effects.
When tracing is disabled the raw template and arguments go straight to the
backend. Otherwise the frames are collected and filtered, each displayed
frame is formatted (with its file reads), the debug-variable arguments are
separated from the format arguments, and one backend call carries the
complete message. -/
def LogWithStack (w : EnhancedWorld) (cfg : DevTraceConfig) (opts : StackLoggerOptions)
    (gs : GlobalState) (now : Nat) (ctx : Carrier) (level message : String)
    (args : List LogVal) : List Effect :=
  if cfg.enabled = false then [Effect.logCall level message args]
  else
    let collected := getStackFramesM w gs now ctx
    let filtered := filterFrames opts collected.1
    let route := buildRouteLine w.parseEnv filtered
    let rendered := renderFrames w opts 0 filtered
    let headParts := [opts.header] ++ (if route ≠ "" then ["  " ++ route] else []) ++ rendered.1
    let debugVars := args.filter isDebugArg
    let messageArgs := args.filter (fun a => !isDebugArg a)
    let varParts :=
      if debugVars ≠ [] then
        ["\nVars:"] ++ debugVars.filterMap (fun a =>
          match a with
          | .debug m => some (dvString w.quoteStr w.valStr m)
          | .plain _ => none)
      else []
    let msgPart :=
      if messageArgs ≠ [] then "\nMessage Log: " ++ w.sprintf message messageArgs
      else "\nMessage Log: " ++ message
    let completeMessage := String.intercalate "\n" (headParts ++ varParts ++ [msgPart])
    collected.2 ++ rendered.2 ++ [Effect.logCall level completeMessage []]

/-- Modelled from the spec: the positional placeholder pattern `arg<N>`
(the literal arg followed by a decimal number), used to state the claim
about which captured-argument keys pass through normalization unchanged. -/
def isArgPlaceholder (s : String) : Bool :=
  strHasPre s "arg" && (decide (s.data.drop 3 ≠ []) && (s.data.drop 3).all Char.isDigit)

/-- Decimal value of a digit character. -/
def chVal (c : Char) : Nat := c.toNat - 48

/-- Fold step interpreting a character list as a decimal numeral. -/
def foldStep (a : Nat) (c : Char) : Nat := 10 * a + chVal c

/-- Interpretation of a character list as a decimal numeral; inverse of
`Nat.toDigits 10` on its image, used to prove `Nat.repr` injective. -/
def foldVal (l : List Char) : Nat := l.foldl foldStep 0

/-- Fixture frame constructor for the concrete instances below. -/
def mkFrameFL (fn fl : String) : Frame := ⟨fn, "", fl, 0, none, none, none, 0⟩

/-- Fixture: an application frame (file path contains the pattern app). -/
def exA1 : Frame := mkFrameFL "main.appwork" "app/x.go"

/-- Fixture: a non-application frame. -/
def exO1 : Frame := mkFrameFL "lib.one" "ext/y.go"

/-- Fixture: a second non-application frame. -/
def exO2 : Frame := mkFrameFL "lib.two" "ext/z.go"

/-- Fixture options of the preferApp counterexample: preferApp on, onlyApp
off, pattern app, limit five, ascending. -/
def exOptsMix : StackLoggerOptions := ⟨"", 2, 5, 0, false, true, "app", false, true⟩

/-- Fixture options with a configured limit of nine, exceeding the hard
ceiling of five. -/
def exOptsBig : StackLoggerOptions := ⟨"", 2, 9, 0, false, false, "/", false, true⟩

/-- Fixture: seven pairwise distinct plain frames. -/
def exManyFrames : List Frame :=
  [mkFrameFL "m.f1" "a1.go", mkFrameFL "m.f2" "a2.go", mkFrameFL "m.f3" "a3.go",
   mkFrameFL "m.f4" "a4.go", mkFrameFL "m.f5" "a5.go", mkFrameFL "m.f6" "a6.go",
   mkFrameFL "m.f7" "a7.go"]

/-- Fixture frame of the idempotence counterexample: one positional
argument, to be renamed to a parameter whose name starts with arg. -/
def exFrPos : Frame := ⟨"f", "", "f.go", 1, some [("arg0", 1)], none, none, 0⟩

/-- Fixture frame of the pass-through counterexample: one captured key that
is the bare string arg (no digits, so not a positional placeholder). -/
def exFrArg : Frame := ⟨"f", "", "f.go", 1, some [("arg", 1)], none, none, 0⟩

/-- Fixture frame for the normalization witnesses: a positional argument
and a caller-supplied key. -/
def exFrBoth : Frame := ⟨"f", "", "f.go", 1, some [("arg0", 5), ("extra", 7)], none, none, 0⟩

/-- Fixture resolver entry. -/
def exSigMethod : FunctionSignature := ⟨"Method", 1, 3, "Method(x int)", ["x"]⟩

/-- Fixture resolver entry with a later span. -/
def exSigHelper : FunctionSignature := ⟨"helper", 5, 7, "helper()", []⟩

/-- Fixture parsing environment: one parseable file with two function
declarations separated by a non-function declaration. -/
def exParseEnv : ParseEnv := fun f =>
  if f = "main.go" then
    some [GoDecl.funcDecl "Method" 1 3 "Method(x int)" ["x"], GoDecl.otherDecl,
          GoDecl.funcDecl "helper" 5 7 "helper()" []]
  else none

/-- Fixture logger world: no readable files, nothing parses, an empty
runtime stack, and plain renderers. -/
def exWorld : EnhancedWorld :=
  ⟨fun _ => none, fun _ => none, [], fun m _ => m, fun s => s,
   fun v => Nat.repr v, fun d => toString d⟩

/-- Fixture configuration with tracing disabled. -/
def exCfgOff : DevTraceConfig := ⟨false, 5, true, false, 0, "/", 1⟩

/-- Fixture global state with an installed global context holding one
frame. -/
def exGlobalInit : GlobalState := ⟨some ⟨[exO1], 1, 3⟩⟩

/-- Fixture global state with no installed global context. -/
def exGlobalNone : GlobalState := ⟨none⟩

/-- Fixture frame with a set start time, for the Leave witness. -/
def exFrTimed : Frame := ⟨"g", "", "g.go", 2, none, some 10, none, 0⟩

/-! Supporting lemmas: strings and decimal numerals. -/

theorem startsL_refl_append (p l : List Char) : startsL p (p ++ l) = true := by
  induction p with
  | nil => rfl
  | cons a as ih => simp [startsL, ih]

theorem strEnds_blank (s : String) : strEnds s "" = true := rfl

theorem chVal_digitChar : ∀ d : Nat, d < 10 → chVal (Nat.digitChar d) = d := by decide

theorem foldl_toDigitsCore :
    ∀ (fuel n : Nat) (ds : List Char), n < fuel →
      (Nat.toDigitsCore 10 fuel n ds).foldl foldStep 0 = ds.foldl foldStep n := by
  intro fuel
  induction fuel with
  | zero => intro n ds h; exact absurd h (Nat.not_lt_zero n)
  | succ f ih =>
    intro n ds h
    simp only [Nat.toDigitsCore]
    by_cases h10 : n / 10 = 0
    · have hn : n < 10 := (Nat.div_eq_zero_iff (by norm_num)).mp h10
      have hcv : chVal (Nat.digitChar n) = n := chVal_digitChar n hn
      simp [h10, foldStep, Nat.mod_eq_of_lt hn, hcv]
    · have hn0 : 0 < n := by
        rcases Nat.eq_zero_or_pos n with h0 | h0
        · subst h0; simp at h10
        · exact h0
      have hlt : n / 10 < f := by
        have h1 : n / 10 < n := Nat.div_lt_self hn0 (by norm_num)
        omega
      have hv : foldStep (n / 10) (Nat.digitChar (n % 10)) = n := by
        have := chVal_digitChar (n % 10) (Nat.mod_lt _ (by norm_num))
        simp [foldStep, this]
        omega
      simp only [h10, if_false]
      rw [ih (n / 10) (Nat.digitChar (n % 10) :: ds) hlt, List.foldl_cons, hv]

theorem foldVal_toDigits (n : Nat) : foldVal (Nat.toDigits 10 n) = n := by
  have h := foldl_toDigitsCore (n + 1) n [] (Nat.lt_succ_self n)
  simpa [foldVal, Nat.toDigits] using h

theorem toDigits_injective {m n : Nat} (h : Nat.toDigits 10 m = Nat.toDigits 10 n) :
    m = n := by
  have h3 := congrArg foldVal h
  simpa [foldVal_toDigits] using h3

theorem repr_data_eq (n : Nat) : (Nat.repr n).data = Nat.toDigits 10 n := rfl

theorem posKey_inj {i j : Nat} (h : posKey i = posKey j) : i = j := by
  have hd := congrArg String.data h
  simp only [posKey, String.data_append] at hd
  have h2 : (Nat.repr i).data = (Nat.repr j).data := List.append_cancel_left hd
  rw [repr_data_eq, repr_data_eq] at h2
  exact toDigits_injective h2

theorem strHasPre_posKey (m : Nat) : strHasPre (posKey m) "arg" = true := by
  show startsL "arg".data (posKey m).data = true
  have h : (posKey m).data = "arg".data ++ (Nat.repr m).data :=
    String.data_append "arg" (Nat.repr m)
  rw [h]
  exact startsL_refl_append _ _

/-! Supporting lemmas: the Go map model. -/

theorem lookupGM_insertGM {α : Type} (m : List (String × α)) (k : String) (v : α)
    (k' : String) :
    lookupGM (insertGM m k v) k' = if k = k' then some v else lookupGM m k' := by
  induction m with
  | nil => simp [insertGM, lookupGM]
  | cons e rest ih =>
    obtain ⟨k0, w⟩ := e
    by_cases h0 : k0 = k
    · subst h0
      simp only [insertGM, if_pos rfl]
      by_cases hk : k0 = k' <;> simp [lookupGM, hk]
    · simp only [insertGM, if_neg h0, lookupGM]
      by_cases hk0 : k0 = k'
      · have hkk : k ≠ k' := fun he => h0 (hk0.trans he.symm)
        simp [hk0, if_neg hkk]
      · simp [hk0, ih]

theorem map_fst_insertGM {α : Type} (m : List (String × α)) (k : String) (v : α) :
    (insertGM m k v).map Prod.fst =
      if k ∈ m.map Prod.fst then m.map Prod.fst else m.map Prod.fst ++ [k] := by
  induction m with
  | nil => simp [insertGM]
  | cons e rest ih =>
    obtain ⟨k0, w⟩ := e
    by_cases h0 : k0 = k
    · subst h0
      simp [insertGM]
    · simp only [insertGM, if_neg h0, List.map_cons, ih]
      by_cases hin : k ∈ rest.map Prod.fst
      · simp [hin]
      · simp [hin, Ne.symm h0]

theorem keysND_insertGM {α : Type} {m : List (String × α)} (h : keysND m)
    (k : String) (v : α) : keysND (insertGM m k v) := by
  unfold keysND at h ⊢
  rw [map_fst_insertGM]
  by_cases hin : k ∈ m.map Prod.fst
  · simpa [hin] using h
  · simp only [hin, if_neg, ite_false]
    rw [List.nodup_append]
    exact ⟨h, List.nodup_singleton k, by
      intro a ha hmem
      simp at hmem
      subst hmem
      exact hin ha⟩

theorem lookupGM_eq_none_iff {α : Type} (m : List (String × α)) (k : String) :
    lookupGM m k = none ↔ k ∉ m.map Prod.fst := by
  induction m with
  | nil => simp [lookupGM]
  | cons e rest ih =>
    obtain ⟨k0, w⟩ := e
    by_cases h0 : k0 = k
    · subst h0
      simp [lookupGM]
    · simp [lookupGM, h0, ih, Ne.symm h0]

theorem posKey_ne_of_ne {i m : Nat} (h : i ≠ m) : posKey i ≠ posKey m :=
  fun hc => h (posKey_inj hc)

theorem ne_posKey_of_no_pre {p : String} (hp : strHasPre p "arg" = false) (m : Nat) :
    p ≠ posKey m := by
  intro he
  rw [he, strHasPre_posKey] at hp
  simp at hp

/-! Supporting lemmas: the positional pass of `normalizeFrameArgs`. -/

theorem lookupGM_posAssign_skip {α : Type} (args : List (String × α)) :
    ∀ (ps : List String) (i : Nat) (acc : List (String × α)) (k : String),
      (∀ j p, ps.get? j = some p →
        lookupGM args (posKey (i + j)) = none ∨ writeName p (i + j) ≠ k) →
      lookupGM (posAssign args ps i acc) k = lookupGM acc k := by
  intro ps
  induction ps with
  | nil => intro i acc k _; rfl
  | cons p rest ih =>
    intro i acc k h
    show lookupGM (posAssign args rest (i + 1)
      (match lookupGM args (posKey i) with
        | none => acc
        | some v => insertGM acc (writeName p i) v)) k = _
    rw [ih (i + 1) _ k ?hshift]
    case hshift =>
      intro j q hq
      have hj := h (j + 1) q (by simpa using hq)
      have harith : i + (j + 1) = i + 1 + j := by omega
      rwa [harith] at hj
    have h0 := h 0 p rfl
    simp only [Nat.add_zero] at h0
    rcases h0 with hnone | hne
    · simp [hnone]
    · cases hv : lookupGM args (posKey i) with
      | none => simp
      | some v => simp [lookupGM_insertGM, if_neg hne]

theorem lookupGM_posAssign_posKey {α : Type} (args : List (String × α)) :
    ∀ (ps : List String) (i : Nat) (acc : List (String × α)) (m : Nat),
      (∀ q ∈ ps, strHasPre q "arg" = false) →
      lookupGM (posAssign args ps i acc) (posKey m) =
        if i ≤ m ∧ ps.get? (m - i) = some "" ∧ (lookupGM args (posKey m)).isSome
        then lookupGM args (posKey m)
        else lookupGM acc (posKey m) := by
  intro ps
  induction ps with
  | nil => intro i acc m _; simp [posAssign]
  | cons p rest ih =>
    intro i acc m hp
    have hpRest : ∀ q ∈ rest, strHasPre q "arg" = false := fun q hq => hp q (by simp [hq])
    show lookupGM (posAssign args rest (i + 1)
      (match lookupGM args (posKey i) with
        | none => acc
        | some v => insertGM acc (writeName p i) v)) (posKey m) = _
    rw [ih (i + 1) _ m hpRest]
    by_cases him : i = m
    · subst him
      have hC' : ¬(i + 1 ≤ i ∧ rest.get? (i - (i + 1)) = some "" ∧
          (lookupGM args (posKey i)).isSome) := by
        intro hc
        omega
      rw [if_neg hC']
      simp only [Nat.sub_self, List.get?_cons_zero, Nat.le_refl, true_and]
      by_cases hpb : p = ""
      · subst hpb
        cases hv : lookupGM args (posKey i) with
        | none => simp [hv]
        | some v => simp [hv, writeName, lookupGM_insertGM]
      · have hg : ¬(some p = some ("" : String)) := by simpa using hpb
        rw [if_neg (by simp [hg] : ¬(some p = some ("" : String) ∧
          (lookupGM args (posKey i)).isSome))]
        cases hv : lookupGM args (posKey i) with
        | none => simp
        | some v =>
            have hne : writeName p i ≠ posKey i := by
              simp only [writeName, if_neg hpb]
              exact ne_posKey_of_no_pre (hp p (by simp)) i
            simp [lookupGM_insertGM, if_neg hne]
    · have hwne : writeName p i ≠ posKey m := by
        by_cases hpb : p = ""
        · simp only [writeName, hpb, if_pos rfl]
          exact posKey_ne_of_ne him
        · simp only [writeName, if_neg hpb]
          exact ne_posKey_of_no_pre (hp p (by simp)) m
      have hacc : lookupGM (match lookupGM args (posKey i) with
          | none => acc
          | some v => insertGM acc (writeName p i) v) (posKey m) = lookupGM acc (posKey m) := by
        cases hv : lookupGM args (posKey i) with
        | none => simp
        | some v => simp [lookupGM_insertGM, if_neg hwne]
      rw [hacc]
      by_cases hle : i + 1 ≤ m
      · have hsub : m - i = (m - (i + 1)) + 1 := by omega
        have hget : (p :: rest).get? (m - i) = rest.get? (m - (i + 1)) := by
          rw [hsub]
          simp
        by_cases hC' : i + 1 ≤ m ∧ rest.get? (m - (i + 1)) = some "" ∧
            (lookupGM args (posKey m)).isSome
        · rw [if_pos hC', if_pos ⟨by omega, by rw [hget]; exact hC'.2.1, hC'.2.2⟩]
        · rw [if_neg hC', if_neg ?hcn]
          case hcn =>
            rintro ⟨h1, h2, h3⟩
            exact hC' ⟨hle, by rwa [hget] at h2, h3⟩
      · have hC : ¬(i ≤ m ∧ (p :: rest).get? (m - i) = some "" ∧
            (lookupGM args (posKey m)).isSome) := by
          intro hc
          rcases hc with ⟨h1, _, _⟩
          omega
        have hC2 : ¬(i + 1 ≤ m ∧ rest.get? (m - (i + 1)) = some "" ∧
            (lookupGM args (posKey m)).isSome) := by
          intro hc
          exact hle hc.1
        rw [if_neg hC, if_neg hC2]

theorem lookupGM_posAssign_parallel {α : Type} (B A : List (String × α)) :
    ∀ (ps : List String) (i : Nat) (acc1 acc2 : List (String × α)) (k : String),
      strHasPre k "arg" = true →
      (∀ q ∈ ps, strHasPre q "arg" = false) →
      (∀ j, ps.get? j = some "" →
        lookupGM B (posKey (i + j)) = lookupGM A (posKey (i + j))) →
      lookupGM acc1 k = lookupGM acc2 k →
      lookupGM (posAssign B ps i acc1) k = lookupGM (posAssign A ps i acc2) k := by
  intro ps
  induction ps with
  | nil => intro i acc1 acc2 k _ _ _ h; exact h
  | cons p rest ih =>
    intro i acc1 acc2 k hk hp hBA hacc
    have hpRest : ∀ q ∈ rest, strHasPre q "arg" = false := fun q hq => hp q (by simp [hq])
    have hshift : ∀ j, rest.get? j = some "" →
        lookupGM B (posKey (i + 1 + j)) = lookupGM A (posKey (i + 1 + j)) := by
      intro j hj
      have hx := hBA (j + 1) (by simpa using hj)
      have harith : i + (j + 1) = i + 1 + j := by omega
      rwa [harith] at hx
    have haccs : lookupGM (match lookupGM B (posKey i) with
        | none => acc1
        | some v => insertGM acc1 (writeName p i) v) k =
        lookupGM (match lookupGM A (posKey i) with
        | none => acc2
        | some v => insertGM acc2 (writeName p i) v) k := by
      by_cases hpb : p = ""
      · have h0 : lookupGM B (posKey i) = lookupGM A (posKey i) := by
          have h00 := hBA 0 (by simp [hpb])
          simpa using h00
        cases hv : lookupGM A (posKey i) with
        | none =>
            have hB : lookupGM B (posKey i) = none := h0.trans hv
            simp only [hB]
            exact hacc
        | some v =>
            have hB : lookupGM B (posKey i) = some v := h0.trans hv
            simp only [hB]
            rw [lookupGM_insertGM, lookupGM_insertGM, hacc]
      · have hpf : strHasPre p "arg" = false := hp p (by simp)
        have hwne : writeName p i ≠ k := by
          simp only [writeName, if_neg hpb]
          intro he
          rw [he, hk] at hpf
          simp at hpf
        cases hvB : lookupGM B (posKey i) with
        | none =>
            cases hvA : lookupGM A (posKey i) with
            | none => exact hacc
            | some v =>
                show lookupGM acc1 k = lookupGM (insertGM acc2 (writeName p i) v) k
                rw [lookupGM_insertGM, if_neg hwne]
                exact hacc
        | some w =>
            cases hvA : lookupGM A (posKey i) with
            | none =>
                show lookupGM (insertGM acc1 (writeName p i) w) k = lookupGM acc2 k
                rw [lookupGM_insertGM, if_neg hwne]
                exact hacc
            | some v =>
                show lookupGM (insertGM acc1 (writeName p i) w) k =
                  lookupGM (insertGM acc2 (writeName p i) v) k
                rw [lookupGM_insertGM, lookupGM_insertGM, if_neg hwne, if_neg hwne]
                exact hacc
    show lookupGM (posAssign B rest (i + 1)
      (match lookupGM B (posKey i) with
        | none => acc1
        | some v => insertGM acc1 (writeName p i) v)) k =
      lookupGM (posAssign A rest (i + 1)
      (match lookupGM A (posKey i) with
        | none => acc2
        | some v => insertGM acc2 (writeName p i) v)) k
    exact ih (i + 1) _ _ k hk hpRest hshift haccs

theorem keysND_posAssign {α : Type} (args : List (String × α)) :
    ∀ (ps : List String) (i : Nat) (acc : List (String × α)),
      keysND acc → keysND (posAssign args ps i acc) := by
  intro ps
  induction ps with
  | nil => intro i acc h; exact h
  | cons p rest ih =>
    intro i acc h
    have hacc : keysND (match lookupGM args (posKey i) with
        | none => acc
        | some v => insertGM acc (writeName p i) v) := by
      cases lookupGM args (posKey i) with
      | none => exact h
      | some v => exact keysND_insertGM h _ v
    exact ih (i + 1) _ hacc

/-! Supporting lemmas: the copy pass of `normalizeFrameArgs`. -/

theorem keysND_copyNonArg {α : Type} :
    ∀ (args acc : List (String × α)), keysND acc → keysND (copyNonArg args acc) := by
  intro args
  induction args with
  | nil => intro acc h; exact h
  | cons e rest ih =>
    obtain ⟨k, v⟩ := e
    intro acc h
    show keysND (copyNonArg rest (if strHasPre k "arg" = true then acc else insertGM acc k v))
    apply ih
    by_cases hk : strHasPre k "arg" = true
    · simpa [hk] using h
    · simpa [hk] using keysND_insertGM h k v

theorem lookupGM_copyNonArg {α : Type} :
    ∀ (args acc : List (String × α)) (k : String), keysND args →
      lookupGM (copyNonArg args acc) k =
        if strHasPre k "arg" = true then lookupGM acc k
        else
          match lookupGM args k with
          | some v => some v
          | none => lookupGM acc k := by
  intro args
  induction args with
  | nil =>
    intro acc k _
    by_cases hk : strHasPre k "arg" = true <;> simp [copyNonArg, lookupGM, hk]
  | cons e rest ih =>
    obtain ⟨k0, v0⟩ := e
    intro acc k hnd
    have hx : k0 ∉ rest.map Prod.fst ∧ keysND rest := by
      simpa [keysND, List.nodup_cons] using hnd
    show lookupGM (copyNonArg rest (if strHasPre k0 "arg" = true then acc
      else insertGM acc k0 v0)) k = _
    rw [ih _ k hx.2]
    by_cases hp0 : strHasPre k0 "arg" = true
    · simp only [if_pos hp0]
      by_cases hpk : strHasPre k "arg" = true
      · simp [hpk]
      · by_cases hk0 : k0 = k
        · exact absurd (hk0 ▸ hp0) hpk
        · simp [hpk, lookupGM, hk0]
    · simp only [if_neg hp0]
      by_cases hpk : strHasPre k "arg" = true
      · have hne : k0 ≠ k := fun he => hp0 (by rw [he]; exact hpk)
        simp only [if_pos hpk]
        rw [lookupGM_insertGM, if_neg hne]
      · by_cases hk0 : k0 = k
        · subst hk0
          have hrest : lookupGM rest k0 = none := (lookupGM_eq_none_iff rest k0).mpr hx.1
          simp only [if_neg hpk, hrest, lookupGM, if_pos rfl]
          rw [lookupGM_insertGM, if_pos rfl]
          simp
        · simp only [if_neg hpk, lookupGM, if_neg hk0]
          cases hr : lookupGM rest k with
          | some v => simp [hr]
          | none =>
              simp only [hr]
              rw [lookupGM_insertGM, if_neg hk0]

theorem keysND_nil {α : Type} : keysND ([] : List (String × α)) := by
  simp [keysND]

theorem keysND_normalizeArgsMap {α : Type} (m : List (String × α)) (ps : List String) :
    keysND (normalizeArgsMap m ps) :=
  keysND_copyNonArg m _ (keysND_posAssign m ps 0 [] keysND_nil)

theorem lookupGM_normalize_posKey {α : Type} (A : List (String × α)) (ps : List String)
    (m : Nat) (hnd : keysND A) (hp : ∀ q ∈ ps, strHasPre q "arg" = false) :
    lookupGM (normalizeArgsMap A ps) (posKey m) =
      if ps.get? m = some "" ∧ (lookupGM A (posKey m)).isSome
      then lookupGM A (posKey m) else none := by
  unfold normalizeArgsMap
  rw [lookupGM_copyNonArg A _ (posKey m) hnd, if_pos (strHasPre_posKey m)]
  rw [lookupGM_posAssign_posKey A ps 0 [] m hp]
  simp [lookupGM]

theorem normalize_idem_map {α : Type} (A : List (String × α)) (ps : List String)
    (hnd : keysND A) (hp : ∀ q ∈ ps, strHasPre q "arg" = false) (k : String) :
    lookupGM (normalizeArgsMap (normalizeArgsMap A ps) ps) k
      = lookupGM (normalizeArgsMap A ps) k := by
  have hndM1 : keysND (normalizeArgsMap A ps) := keysND_normalizeArgsMap A ps
  by_cases hk : strHasPre k "arg" = true
  · have hM1eq : lookupGM (normalizeArgsMap A ps) k = lookupGM (posAssign A ps 0 []) k := by
      unfold normalizeArgsMap
      rw [lookupGM_copyNonArg _ _ k hnd, if_pos hk]
    have hLHS : lookupGM (normalizeArgsMap (normalizeArgsMap A ps) ps) k
        = lookupGM (posAssign (normalizeArgsMap A ps) ps 0 []) k := by
      show lookupGM (copyNonArg (normalizeArgsMap A ps)
        (posAssign (normalizeArgsMap A ps) ps 0 [])) k = _
      rw [lookupGM_copyNonArg _ _ k hndM1, if_pos hk]
    rw [hLHS, hM1eq]
    apply lookupGM_posAssign_parallel (normalizeArgsMap A ps) A ps 0 [] [] k hk hp ?side rfl
    case side =>
      intro j hj
      simp only [Nat.zero_add]
      rw [lookupGM_normalize_posKey A ps j hnd hp]
      cases hv : lookupGM A (posKey j) with
      | none =>
          rw [if_neg ?hc2]
          case hc2 =>
            rintro ⟨_, h2⟩
            simp at h2
      | some v => rw [if_pos ⟨hj, rfl⟩]
  · have hkf : strHasPre k "arg" = false := by
      rw [Bool.not_eq_true] at hk
      exact hk
    have hLHS : lookupGM (normalizeArgsMap (normalizeArgsMap A ps) ps) k
        = (match lookupGM (normalizeArgsMap A ps) k with
           | some v => some v
           | none => lookupGM (posAssign (normalizeArgsMap A ps) ps 0 []) k) := by
      show lookupGM (copyNonArg (normalizeArgsMap A ps)
        (posAssign (normalizeArgsMap A ps) ps 0 [])) k = _
      rw [lookupGM_copyNonArg _ _ k hndM1, if_neg hk]
    rw [hLHS]
    cases hv : lookupGM (normalizeArgsMap A ps) k with
    | some v => rfl
    | none =>
        rw [lookupGM_posAssign_skip (normalizeArgsMap A ps) ps 0 [] k ?hnw]
        · rfl
        case hnw =>
          intro j p hj
          by_cases hpb : p = ""
          · right
            subst hpb
            intro he
            have he2 : posKey (0 + j) = k := by simpa [writeName] using he
            rw [← he2, strHasPre_posKey] at hkf
            simp at hkf
          · by_cases hpk : p = k
            · left
              rw [lookupGM_normalize_posKey A ps (0 + j) hnd hp]
              rw [if_neg ?hc]
              case hc =>
                rintro ⟨h1, _⟩
                rw [Nat.zero_add, hj] at h1
                exact hpb (by simpa using h1)
            · right
              simp only [writeName, if_neg hpb]
              exact hpk

/-! The claim theorems about argument normalization (claims C4 and C5). -/

/-- Claim C4, as stated, is false on the code: normalizing the captured
arguments twice with the same parameter-name list is not always the same
as normalizing once. Concrete input: a frame whose captured arguments are
the single positional entry arg0 and the parameter-name list [args]. The
first normalization renames arg0 to args; the second normalization drops
the key args entirely, because the copy pass skips every key with the
prefix arg. -/
theorem claim_C4_counterexample :
    frameArgLookup (normalizeFrameArgs exFrPos ["args"]) "args" = some 1 ∧
    frameArgLookup (normalizeFrameArgs (normalizeFrameArgs exFrPos ["args"]) ["args"])
      "args" = none := by
  constructor
  · rfl
  · rfl

/-- Claim C4, amended: for every frame and every parameter-name list in
which no parameter name starts with the prefix arg (blank names included),
applying argument-name normalization twice with the same parameter-name
list yields exactly the same argument mapping as applying it once
(extensionally, as a Go map). The key-distinctness hypothesis is the
invariant of every Go map. -/
theorem claim_C4_normalize_idempotent_amended :
    ∀ (fr : Frame) (params : List String),
      (∀ m, fr.args = some m → keysND m) →
      (∀ p ∈ params, strHasPre p "arg" = false) →
      ∀ k, frameArgLookup (normalizeFrameArgs (normalizeFrameArgs fr params) params) k
        = frameArgLookup (normalizeFrameArgs fr params) k := by
  intro fr params hnd hp k
  cases hargs : fr.args with
  | none =>
      have h1 : normalizeFrameArgs fr params = fr := by
        simp [normalizeFrameArgs, hargs]
      rw [h1, h1]
  | some m =>
      by_cases hme : m = [] ∨ params = []
      · have h1 : normalizeFrameArgs fr params = fr := by
          simp only [normalizeFrameArgs, hargs, if_pos hme]
        rw [h1, h1]
      · have h1 : normalizeFrameArgs fr params = setArgs fr (some (normalizeArgsMap m params)) := by
          simp only [normalizeFrameArgs, hargs, if_neg hme]
        rw [h1]
        by_cases hM1 : normalizeArgsMap m params = []
        · have h2 : normalizeFrameArgs (setArgs fr (some (normalizeArgsMap m params))) params
              = setArgs fr (some (normalizeArgsMap m params)) := by
            simp [normalizeFrameArgs, setArgs, hM1]
          rw [h2]
        · have h2 : normalizeFrameArgs (setArgs fr (some (normalizeArgsMap m params))) params
              = setArgs (setArgs fr (some (normalizeArgsMap m params)))
                  (some (normalizeArgsMap (normalizeArgsMap m params) params)) := by
            have hcond : ¬(normalizeArgsMap m params = [] ∨ params = []) := by
              rintro (hc | hc)
              · exact hM1 hc
              · exact hme (Or.inr hc)
            simp only [normalizeFrameArgs, setArgs, if_neg hcond]
          rw [h2]
          show lookupGM (normalizeArgsMap (normalizeArgsMap m params) params) k
            = lookupGM (normalizeArgsMap m params) k
          exact normalize_idem_map m params (hnd m hargs) hp k

/-- Claim C4 amended, witness: a concrete frame with a positional argument
and a caller-supplied key, and the parameter-name list [count]. -/
theorem claim_C4_amended_witness :
    (∀ p ∈ ["count"], strHasPre p "arg" = false) ∧
    frameArgLookup (normalizeFrameArgs (normalizeFrameArgs exFrBoth ["count"]) ["count"])
      "count" = frameArgLookup (normalizeFrameArgs exFrBoth ["count"]) "count" := by
  refine ⟨by decide, ?_⟩
  apply claim_C4_normalize_idempotent_amended exFrBoth ["count"] ?h1 (by decide) "count"
  case h1 =>
    intro m hm
    have hme : m = [("arg0", (5 : Nat)), ("extra", 7)] := (Option.some.inj hm).symm
    subst hme
    decide

/-- Claim C5, as stated, is false on the code: a captured-argument key that
does not match the positional placeholder pattern arg N is not always
preserved. Concrete input: the key arg (no digits after the prefix, so not
a placeholder) with the parameter-name list [p]. The copy pass of
normalization skips every key with the prefix arg, so the binding is
dropped. -/
theorem claim_C5_counterexample :
    isArgPlaceholder "arg" = false ∧
    frameArgLookup exFrArg "arg" = some 1 ∧
    frameArgLookup (normalizeFrameArgs exFrArg ["p"]) "arg" = none := by
  refine ⟨by decide, rfl, rfl⟩

/-- Claim C5, amended: for every frame and every parameter-name list, every
captured-argument key that does not start with the prefix arg is preserved
unchanged by normalization: the normalized mapping contains the same key
bound to the same value. (Keys that start with arg but do not match the
placeholder pattern may be dropped.) -/
theorem claim_C5_nonpositional_keys_amended :
    ∀ (fr : Frame) (params : List String) (k : String) (v : Val),
      (∀ m, fr.args = some m → keysND m) →
      strHasPre k "arg" = false →
      frameArgLookup fr k = some v →
      frameArgLookup (normalizeFrameArgs fr params) k = some v := by
  intro fr params k v hnd hk hv
  cases hargs : fr.args with
  | none => simp [frameArgLookup, hargs] at hv
  | some m =>
      by_cases hme : m = [] ∨ params = []
      · have h1 : normalizeFrameArgs fr params = fr := by
          simp only [normalizeFrameArgs, hargs, if_pos hme]
        rw [h1]
        exact hv
      · have h1 : normalizeFrameArgs fr params = setArgs fr (some (normalizeArgsMap m params)) := by
          simp only [normalizeFrameArgs, hargs, if_neg hme]
        rw [h1]
        show lookupGM (normalizeArgsMap m params) k = some v
        unfold normalizeArgsMap
        rw [lookupGM_copyNonArg _ _ k (hnd m hargs), if_neg (by simp [hk])]
        have hmv : lookupGM m k = some v := by simpa [frameArgLookup, hargs] using hv
        rw [hmv]

/-- Claim C5 amended, witness: the caller-supplied key extra survives
normalization of a concrete frame with its value. -/
theorem claim_C5_amended_witness :
    strHasPre "extra" "arg" = false ∧
    frameArgLookup (normalizeFrameArgs exFrBoth ["count"]) "extra" = some 7 := by
  refine ⟨by decide, ?_⟩
  apply claim_C5_nonpositional_keys_amended exFrBoth ["count"] "extra" 7 ?h1 (by decide) rfl
  case h1 =>
    intro m hm
    have hme : m = [("arg0", (5 : Nat)), ("extra", 7)] := (Option.some.inj hm).symm
    subst hme
    decide

/-! Supporting lemmas: the bounding and ordering stages of `filterFrames`
(claims C1 and C3). -/

theorem clampLimit_bounds (l : Int) : 1 ≤ clampLimit l ∧ clampLimit l ≤ 5 := by
  unfold clampLimit
  dsimp only
  split_ifs <;> omega

theorem length_limitStage_le (l : Int) (fs : List Frame) : (limitStage l fs).length ≤ 5 := by
  obtain ⟨hb1, hb2⟩ := clampLimit_bounds l
  unfold limitStage
  dsimp only
  split_ifs with h
  · rw [List.length_drop]
    omega
  · omega

theorem limitStage_suffix (l : Int) (fs : List Frame) : limitStage l fs <:+ fs := by
  unfold limitStage
  dsimp only
  split_ifs with h
  · exact List.drop_suffix _ _
  · exact List.suffix_refl _

theorem length_limitStage_eq (l : Int) (fs : List Frame) :
    (limitStage l fs).length = min fs.length (clampLimit l).toNat := by
  obtain ⟨hb1, hb2⟩ := clampLimit_bounds l
  unfold limitStage
  dsimp only
  split_ifs with h
  · rw [List.length_drop]
    omega
  · omega

theorem applyAppFilter_nil (opts : StackLoggerOptions) : applyAppFilter opts [] = [] := by
  unfold applyAppFilter appOf
  split_ifs <;> simp_all

theorem filterFrames_eq (opts : StackLoggerOptions) (frames : List Frame)
    (h : ¬frames.isEmpty = true) :
    filterFrames opts frames =
      if opts.ascending then limitStage opts.limit (applyAppFilter opts (dropInternal frames))
      else (limitStage opts.limit (applyAppFilter opts (dropInternal frames))).reverse := by
  simp [filterFrames, h]

theorem applyAppFilter_withAscending (o : StackLoggerOptions) (b : Bool) (fs : List Frame) :
    applyAppFilter (withAscending o b) fs = applyAppFilter o fs := rfl

/-- Claim C1: for every input frame list and every configuration, the
display stack produced by `filterFrames` contains at most five frames, and
the frames it shows are a suffix — the most recent, innermost entries — of
the filtered sequence produced by the self-filtering and app-preference
stages (read before the optional reversal of the direction stage), of
exactly the minimum of that sequence length and the effective limit; a
configured limit that is not positive or exceeds five is treated as
five. -/
theorem claim_C1_display_cap :
    ∀ (opts : StackLoggerOptions) (frames : List Frame),
      (filterFrames opts frames).length ≤ 5 ∧
      (if opts.ascending then filterFrames opts frames
       else (filterFrames opts frames).reverse) <:+
        applyAppFilter opts (dropInternal frames) ∧
      (filterFrames opts frames).length
        = min (applyAppFilter opts (dropInternal frames)).length
            (clampLimit opts.limit).toNat ∧
      (∀ l : Int, (l ≤ 0 ∨ 5 < l) → clampLimit l = 5) := by
  intro opts frames
  refine ⟨?len, ?suf, ?exact, ?clamp⟩
  case exact =>
    by_cases he : frames.isEmpty = true
    · have hempty : frames = [] := by simpa [List.isEmpty_iff] using he
      subst hempty
      have h0 : filterFrames opts [] = [] := by simp [filterFrames]
      have h1 : dropInternal [] = [] := rfl
      rw [h0, h1, applyAppFilter_nil]
      simp
    · rw [filterFrames_eq opts frames he]
      split_ifs with ha
      · exact length_limitStage_eq _ _
      · rw [List.length_reverse]
        exact length_limitStage_eq _ _
  case clamp =>
    intro l hl
    unfold clampLimit
    dsimp only
    split_ifs <;> omega
  case len =>
    by_cases he : frames.isEmpty = true
    · have hempty : frames = [] := by simpa [List.isEmpty_iff] using he
      subst hempty
      simp [filterFrames]
    · rw [filterFrames_eq opts frames he]
      split_ifs with ha
      · exact length_limitStage_le _ _
      · rw [List.length_reverse]
        exact length_limitStage_le _ _
  case suf =>
    by_cases he : frames.isEmpty = true
    · have hempty : frames = [] := by simpa [List.isEmpty_iff] using he
      subst hempty
      have h0 : filterFrames opts [] = [] := by simp [filterFrames]
      rw [h0]
      split_ifs <;> simp
    · rw [filterFrames_eq opts frames he]
      split_ifs with ha
      · exact limitStage_suffix _ _
      · rw [List.reverse_reverse]
        exact limitStage_suffix _ _

/-- Claim C1, witness: a configured limit of nine is treated as five, and
seven input frames are displayed as at most five. -/
theorem claim_C1_witness :
    clampLimit 9 = 5 ∧ (filterFrames exOptsBig exManyFrames).length ≤ 5 := by
  have h := claim_C1_display_cap exOptsBig exManyFrames
  exact ⟨h.2.2.2 9 (Or.inr (by norm_num)), h.1⟩

/-- Claim C3: for every input frame list and every pair of option sets
identical except for the ascending flag, the display stack produced with
ascending false is the exact reverse of the display stack produced with
ascending true. Every stage of `filterFrames` before the final ordering
step, including the bounding step, is independent of the flag. -/
theorem claim_C3_descending_is_reverse :
    ∀ (opts : StackLoggerOptions) (frames : List Frame),
      filterFrames (withAscending opts false) frames
        = (filterFrames (withAscending opts true) frames).reverse := by
  intro opts frames
  by_cases he : frames.isEmpty = true
  · have hempty : frames = [] := by simpa [List.isEmpty_iff] using he
    subst hempty
    simp [filterFrames]
  · rw [filterFrames_eq _ _ he, filterFrames_eq _ _ he]
    simp only [applyAppFilter_withAscending]
    simp [withAscending]

/-! Supporting lemmas: the preferApp mixing loop (claim C2). -/

theorem skipScanAux_ge (F : List Frame) (t : Frame) :
    ∀ (fuel oi : Nat), oi ≤ skipScanAux F t fuel oi := by
  intro fuel
  induction fuel with
  | zero => intro oi; exact Nat.le_refl oi
  | succ fuel ih =>
      intro oi
      simp only [skipScanAux]
      split_ifs with h1 h2
      · omega
      · have := ih (oi + 1)
        omega
      · exact Nat.le_refl oi

theorem skipScan_ge (F : List Frame) (t : Frame) (oi : Nat) : oi ≤ skipScan F t oi :=
  skipScanAux_ge F t F.length oi

theorem tailSkip_ge (A F : List Frame) (ai oi : Nat) : oi ≤ tailSkip A F ai oi := by
  unfold tailSkip
  split_ifs with h
  · cases A.get? (ai - 1) with
    | none => exact Nat.le_refl oi
    | some t => exact skipScan_ge F t oi
  · exact Nat.le_refl oi

theorem skipScan_progress (F : List Frame) (t : Frame) (oi : Nat) (h : oi < F.length) :
    oi + 1 ≤ skipScan F t oi := by
  unfold skipScan
  cases hl : F.length with
  | zero => omega
  | succ n =>
      simp only [skipScanAux]
      rw [dif_pos (by omega : oi < F.length)]
      split_ifs
      · omega
      · have := skipScanAux_ge F t n (oi + 1)
        omega

theorem tailSkip_progress (A F : List Frame) (ai oi : Nat) (hA : A ≠ [])
    (hai : ai = A.length) (hoi : oi < F.length) : oi + 1 ≤ tailSkip A F ai oi := by
  have h0 : 0 < ai := by
    have : 0 < A.length := List.length_pos.mpr hA
    omega
  unfold tailSkip
  rw [if_pos h0]
  cases hg : A.get? (ai - 1) with
  | none => exact absurd hg (by
      intro hc
      have := List.get?_eq_none.mp hc
      have hl : 0 < A.length := List.length_pos.mpr hA
      omega)
  | some t => exact skipScan_progress F t oi hoi

theorem filter_drop_sublist (p : Frame → Bool) (F : List Frame) {oi oi' : Nat}
    (h : oi ≤ oi') : ((F.drop oi').filter p).Sublist ((F.drop oi).filter p) := by
  have hdd : F.drop oi' = (F.drop oi).drop (oi' - oi) := by
    rw [List.drop_drop]
    congr 1
    omega
  rw [hdd]
  exact List.Sublist.filter p (List.drop_sublist _ _)

theorem mixLoop_stop (A F : List Frame) (lim : Int) (pat : String) (fuel ai oi : Nat)
    (res : List Frame)
    (h : ¬((res.length : Int) < lim ∧ (ai < A.length ∨ oi < F.length))) :
    mixLoop A F lim pat (fuel + 1) ai oi res = res := by
  simp only [mixLoop]
  rw [if_neg h]

theorem mixLoop_app (A F : List Frame) (lim : Int) (pat : String) (fuel ai oi : Nat)
    (res : List Frame)
    (h : (res.length : Int) < lim ∧ (ai < A.length ∨ oi < F.length))
    (h1 : ai < A.length) :
    mixLoop A F lim pat (fuel + 1) ai oi res
      = mixLoop A F lim pat fuel (ai + 1) (skipScan F (A.get ⟨ai, h1⟩) oi)
          (res ++ [A.get ⟨ai, h1⟩]) := by
  simp only [mixLoop]
  rw [if_pos h, dif_pos h1]

theorem mixLoop_nonapp (A F : List Frame) (lim : Int) (pat : String) (fuel ai oi : Nat)
    (res : List Frame) (fo : Frame)
    (h : (res.length : Int) < lim ∧ (ai < A.length ∨ oi < F.length))
    (h1 : ¬ai < A.length) (hfo : F.get? oi = some fo)
    (hc : strContains fo.file pat = false) :
    mixLoop A F lim pat (fuel + 1) ai oi res
      = mixLoop A F lim pat fuel ai (tailSkip A F ai (oi + 1)) (res ++ [fo]) := by
  simp only [mixLoop]
  rw [if_pos h, dif_neg h1, hfo]
  simp [hc]

theorem mixLoop_appskip (A F : List Frame) (lim : Int) (pat : String) (fuel ai oi : Nat)
    (res : List Frame) (fo : Frame)
    (h : (res.length : Int) < lim ∧ (ai < A.length ∨ oi < F.length))
    (h1 : ¬ai < A.length) (hfo : F.get? oi = some fo)
    (hc : strContains fo.file pat = true) :
    mixLoop A F lim pat (fuel + 1) ai oi res
      = mixLoop A F lim pat fuel ai (tailSkip A F ai oi) res := by
  simp only [mixLoop]
  rw [if_pos h, dif_neg h1, hfo]
  simp [hc]

theorem mixLoop_spec (A F : List Frame) (lim : Int) (pat : String) :
    ∀ (fuel ai oi : Nat) (res : List Frame),
      ∃ (k : Nat) (fill : List Frame),
        mixLoop A F lim pat fuel ai oi res = res ++ ((A.drop ai).take k ++ fill) ∧
        fill.Sublist ((F.drop oi).filter (fun f => !strContains f.file pat)) ∧
        (mixLoop A F lim pat fuel ai oi res).length ≤ max res.length lim.toNat ∧
        ((A.length - ai) + (F.length - oi) < fuel →
          ((lim : Int) ≤ ((mixLoop A F lim pat fuel ai oi res).length : Int) ∨
           (A.drop ai).take k = A.drop ai)) := by
  intro fuel
  induction fuel with
  | zero =>
      intro ai oi res
      refine ⟨0, [], by simp [mixLoop], List.nil_sublist _, ?_, ?_⟩
      · simp [mixLoop]
      · intro hf
        omega
  | succ fuel ih =>
      intro ai oi res
      by_cases hcond : (res.length : Int) < lim ∧ (ai < A.length ∨ oi < F.length)
      · by_cases h1 : ai < A.length
        · obtain ⟨k', fill', heq, hsub, hlen, hcomp⟩ :=
            ih (ai + 1) (skipScan F (A.get ⟨ai, h1⟩) oi) (res ++ [A.get ⟨ai, h1⟩])
          have hstep := mixLoop_app A F lim pat fuel ai oi res hcond h1
          have hdrop : A.drop ai = A.get ⟨ai, h1⟩ :: A.drop (ai + 1) := by
            rw [List.drop_eq_getElem_cons h1, List.get_eq_getElem]
          refine ⟨k' + 1, fill', ?_, ?_, ?_, ?_⟩
          · rw [hstep, heq, hdrop, List.take_succ_cons]
            simp
          · exact hsub.trans (filter_drop_sublist _ F (skipScan_ge F _ oi))
          · rw [hstep]
            simp only [List.length_append, List.length_singleton] at hlen
            have hres : (res.length : Int) < lim := hcond.1
            omega
          · intro hf
            have hmeas : (A.length - (ai + 1)) + (F.length - skipScan F (A.get ⟨ai, h1⟩) oi)
                < fuel := by
              have := skipScan_ge F (A.get ⟨ai, h1⟩) oi
              omega
            rcases hcomp hmeas with hl | hr
            · left
              rw [hstep]
              exact hl
            · right
              rw [hdrop, List.take_succ_cons, hr]
        · have hoi : oi < F.length := by
            rcases hcond.2 with hx | hx
            · exact absurd hx h1
            · exact hx
          cases hfo : F.get? oi with
          | none =>
              exact absurd hoi (by simpa using (List.get?_eq_none.mp hfo))
          | some fo =>
              have hFdrop : F.drop oi = fo :: F.drop (oi + 1) := by
                obtain ⟨hlt, hget⟩ := List.get?_eq_some.mp hfo
                rw [List.drop_eq_getElem_cons hlt, ← hget]
                rfl
              have hAnil : A.drop ai = [] := List.drop_eq_nil_of_le (by omega)
              by_cases hc : strContains fo.file pat = true
              · obtain ⟨k', fill', heq, hsub, hlen, _⟩ :=
                  ih ai (tailSkip A F ai oi) res
                have hstep := mixLoop_appskip A F lim pat fuel ai oi res fo hcond h1 hfo hc
                refine ⟨k', fill', ?_, ?_, ?_, ?_⟩
                · rw [hstep, heq]
                · exact hsub.trans (filter_drop_sublist _ F (tailSkip_ge A F ai oi))
                · rw [hstep]
                  exact hlen
                · intro hf
                  right
                  rw [hAnil]
                  simp
              · have hcf : strContains fo.file pat = false := by
                  rw [Bool.not_eq_true] at hc
                  exact hc
                obtain ⟨k', fill', heq, hsub, hlen, _⟩ :=
                  ih ai (tailSkip A F ai (oi + 1)) (res ++ [fo])
                have hstep := mixLoop_nonapp A F lim pat fuel ai oi res fo hcond h1 hfo hcf
                refine ⟨0, fo :: fill', ?_, ?_, ?_, ?_⟩
                · rw [hstep, heq, hAnil]
                  simp
                · rw [hFdrop]
                  have hfil : (F.drop oi).filter (fun f => !strContains f.file pat)
                      = fo :: (F.drop (oi + 1)).filter (fun f => !strContains f.file pat) := by
                    rw [hFdrop]
                    simp [List.filter_cons, hcf]
                  rw [← hFdrop, hfil]
                  exact List.Sublist.cons₂ fo
                    (hsub.trans (filter_drop_sublist _ F (tailSkip_ge A F ai (oi + 1))))
                · rw [hstep]
                  simp only [List.length_append, List.length_singleton] at hlen
                  have hres : (res.length : Int) < lim := hcond.1
                  omega
                · intro hf
                  right
                  rw [hAnil]
                  simp
      · have hstep := mixLoop_stop A F lim pat fuel ai oi res hcond
        refine ⟨0, [], by rw [hstep]; simp, List.nil_sublist _, by rw [hstep]; omega, ?_⟩
        intro hf
        rw [hstep]
        rcases not_and_or.mp hcond with hx | hx
        · left
          omega
        · right
          have hA : A.length ≤ ai := by
            push_neg at hx
            omega
          rw [List.drop_eq_nil_of_le hA]
          simp

theorem mixLoop_fuel_stable (A F : List Frame) (lim : Int) (pat : String) (hA : A ≠ []) :
    ∀ (fuel1 fuel2 ai oi : Nat) (res : List Frame),
      ai ≤ A.length →
      (A.length - ai) + (F.length - oi) < fuel1 →
      (A.length - ai) + (F.length - oi) < fuel2 →
      mixLoop A F lim pat fuel1 ai oi res = mixLoop A F lim pat fuel2 ai oi res := by
  intro fuel1
  induction fuel1 with
  | zero => intro fuel2 ai oi res _ h1 _; omega
  | succ f1 ih =>
      intro fuel2 ai oi res hai h1 h2
      cases fuel2 with
      | zero => omega
      | succ f2 =>
          by_cases hcond : (res.length : Int) < lim ∧ (ai < A.length ∨ oi < F.length)
          · by_cases hb1 : ai < A.length
            · rw [mixLoop_app A F lim pat f1 ai oi res hcond hb1,
                  mixLoop_app A F lim pat f2 ai oi res hcond hb1]
              apply ih
              · omega
              · have := skipScan_ge F (A.get ⟨ai, hb1⟩) oi
                omega
              · have := skipScan_ge F (A.get ⟨ai, hb1⟩) oi
                omega
            · have hoi : oi < F.length := by
                rcases hcond.2 with hx | hx
                · exact absurd hx hb1
                · exact hx
              have haiEq : ai = A.length := by omega
              cases hfo : F.get? oi with
              | none => exact absurd hoi (by simpa using (List.get?_eq_none.mp hfo))
              | some fo =>
                  by_cases hc : strContains fo.file pat = true
                  · rw [mixLoop_appskip A F lim pat f1 ai oi res fo hcond hb1 hfo hc,
                        mixLoop_appskip A F lim pat f2 ai oi res fo hcond hb1 hfo hc]
                    apply ih
                    · omega
                    · have := tailSkip_progress A F ai oi hA haiEq hoi
                      omega
                    · have := tailSkip_progress A F ai oi hA haiEq hoi
                      omega
                  · have hcf : strContains fo.file pat = false := by
                      rw [Bool.not_eq_true] at hc
                      exact hc
                    rw [mixLoop_nonapp A F lim pat f1 ai oi res fo hcond hb1 hfo hcf,
                        mixLoop_nonapp A F lim pat f2 ai oi res fo hcond hb1 hfo hcf]
                    apply ih
                    · omega
                    · have := tailSkip_ge A F ai (oi + 1)
                      omega
                    · have := tailSkip_ge A F ai (oi + 1)
                      omega
          · rw [mixLoop_stop A F lim pat f1 ai oi res hcond,
                mixLoop_stop A F lim pat f2 ai oi res hcond]

theorem mixFrames_fuel_irrelevant (A F : List Frame) (lim : Int) (pat : String)
    (hA : A ≠ []) (fuel : Nat) (hf : A.length + F.length < fuel) :
    mixLoop A F lim pat fuel 0 0 [] = mixFrames A F lim pat := by
  unfold mixFrames
  apply mixLoop_fuel_stable A F lim pat hA fuel (A.length + F.length + 1) 0 0 []
  · exact Nat.zero_le _
  · simpa using hf
  · omega

/-- Claim C2, as stated, is false on the code. Concrete input: frames
[exA1, exO1, exO2] with application pattern app (only exA1 matches), limit
five, preferApp set and onlyApp not. The mixing step outputs [exA1, exO1]:
the non-application frame exO2 is dropped even though the limit is not
reached and it was never added, because after adding exO1 the skip scan
advances past exO2 while searching for the last added application frame.
The claim says the filler continues in original order until the limit is
reached or the input is exhausted, which would give [exA1, exO1, exO2]. -/
theorem claim_C2_counterexample :
    filterFrames exOptsMix [exA1, exO1, exO2] = [exA1, exO1] ∧
    exO2 ∈ [exA1, exO1, exO2] ∧
    strContains exO2.file exOptsMix.appPattern = false ∧
    exO2 ∉ filterFrames exOptsMix [exA1, exO1, exO2] ∧
    (filterFrames exOptsMix [exA1, exO1, exO2]).length < exOptsMix.limit.toNat ∧
    filterFrames exOptsMix [exA1, exO1, exO2] ≠ [exA1, exO1, exO2] := by
  refine ⟨rfl, by decide, by decide, by decide, by decide, by decide⟩

/-- Claim C2, amended: if preferApp is set (and onlyApp is not) and at
least one frame of the filtered list matches the application pattern, then
the mixing step outputs application frames first, in their original
relative order — all of them whenever the frame limit is not reached —
followed by a filler that is a subsequence of the non-application frames
in their original order; the limit is never exceeded and (for pairwise
distinct input frames) no frame is added twice. The filler may however
skip non-application frames that the inner scan passes over, so it does
not always extend to the limit or to the end of the input. -/
theorem claim_C2_prefer_app_amended :
    ∀ (opts : StackLoggerOptions) (filtered : List Frame),
      opts.onlyApp = false → opts.preferApp = true →
      appOf opts.appPattern filtered ≠ [] →
      ∃ (k : Nat) (fill : List Frame),
        applyAppFilter opts filtered
          = (appOf opts.appPattern filtered).take k ++ fill ∧
        fill.Sublist (filtered.filter (fun f => !strContains f.file opts.appPattern)) ∧
        (applyAppFilter opts filtered).length ≤ opts.limit.toNat ∧
        ((opts.limit : Int) ≤ ((applyAppFilter opts filtered).length : Int) ∨
          (appOf opts.appPattern filtered).take k = appOf opts.appPattern filtered) ∧
        (filtered.Nodup → (applyAppFilter opts filtered).Nodup) := by
  intro opts filtered honly hpref hne
  have happ : applyAppFilter opts filtered
      = mixFrames (appOf opts.appPattern filtered) filtered opts.limit opts.appPattern := by
    simp [applyAppFilter, honly, hpref, hne]
  obtain ⟨k, fill, heq, hsub, hlen, hcomp⟩ :=
    mixLoop_spec (appOf opts.appPattern filtered) filtered opts.limit opts.appPattern
      ((appOf opts.appPattern filtered).length + filtered.length + 1) 0 0 []
  have heq' : mixFrames (appOf opts.appPattern filtered) filtered opts.limit opts.appPattern
      = (appOf opts.appPattern filtered).take k ++ fill := by
    rw [mixFrames, heq]
    simp
  have hsub' : fill.Sublist (filtered.filter (fun f => !strContains f.file opts.appPattern)) := by
    simpa using hsub
  refine ⟨k, fill, by rw [happ, heq'], hsub', ?_, ?_, ?_⟩
  · rw [happ, mixFrames]
    simpa using hlen
  · have hcomp' := hcomp (by omega)
    rcases hcomp' with hl | hr
    · left
      rw [happ, mixFrames]
      simpa using hl
    · right
      simpa using hr
  · intro hnd
    rw [happ, heq', List.nodup_append]
    refine ⟨?_, ?_, ?_⟩
    · exact ((List.take_sublist _ _).trans (List.filter_sublist _)).nodup hnd
    · exact (hsub'.trans (List.filter_sublist _)).nodup hnd
    · intro x hx1 hx2
      have hm1 : x ∈ appOf opts.appPattern filtered := (List.take_sublist k _).subset hx1
      have h1 : strContains x.file opts.appPattern = true := (List.mem_filter.mp hm1).2
      have h2 : (!strContains x.file opts.appPattern) = true :=
        (List.mem_filter.mp (hsub'.subset hx2)).2
      rw [h1] at h2
      simp at h2

/-- Claim C2 amended, witness: the concrete mixing run on
[exA1, exO1, exO2] satisfies the amended description. -/
theorem claim_C2_amended_witness :
    ∃ (k : Nat) (fill : List Frame),
      applyAppFilter exOptsMix [exA1, exO1, exO2]
        = (appOf exOptsMix.appPattern [exA1, exO1, exO2]).take k ++ fill ∧
      fill.Sublist (([exA1, exO1, exO2]).filter
        (fun f => !strContains f.file exOptsMix.appPattern)) ∧
      (applyAppFilter exOptsMix [exA1, exO1, exO2]).length ≤ exOptsMix.limit.toNat ∧
      ((exOptsMix.limit : Int) ≤ ((applyAppFilter exOptsMix [exA1, exO1, exO2]).length : Int) ∨
        (appOf exOptsMix.appPattern [exA1, exO1, exO2]).take k
          = appOf exOptsMix.appPattern [exA1, exO1, exO2]) ∧
      (([exA1, exO1, exO2] : List Frame).Nodup →
        (applyAppFilter exOptsMix [exA1, exO1, exO2]).Nodup) :=
  claim_C2_prefer_app_amended exOptsMix [exA1, exO1, exO2] rfl rfl (by decide)

/-! Supporting lemmas: the signature resolver lookup (claim C6). -/

theorem findSig_some {fns : List FunctionSignature} {line : Int} {cand : String}
    {fn : FunctionSignature} (h : findSig line cand fns = some fn) :
    fn ∈ fns ∧ fn.startLine ≤ line ∧ line ≤ fn.endLine ∧
      (cand ≠ "" → strEnds cand fn.name = true) := by
  induction fns with
  | nil => simp [findSig] at h
  | cons g rest ih =>
      rw [findSig] at h
      split_ifs at h with hspan hname
      · obtain ⟨hm, h1, h2, h3⟩ := ih h
        exact ⟨List.mem_cons_of_mem g hm, h1, h2, h3⟩
      · obtain ⟨hm, h1, h2, h3⟩ := ih h
        exact ⟨List.mem_cons_of_mem g hm, h1, h2, h3⟩
      · have hgf : g = fn := Option.some.inj h
        subst hgf
        push_neg at hspan
        refine ⟨by simp, hspan.1, hspan.2, ?_⟩
        intro hcand
        by_cases hn : g.name = ""
        · rw [hn]
          exact strEnds_blank cand
        · by_cases hs : strEnds cand g.name = true
          · exact hs
          · exact absurd ⟨hcand, hn, by simpa using hs⟩ hname

theorem findSig_none {fns : List FunctionSignature} {line : Int} {cand : String}
    (h : ∀ fn ∈ fns, ¬(fn.startLine ≤ line ∧ line ≤ fn.endLine)) :
    findSig line cand fns = none := by
  induction fns with
  | nil => rfl
  | cons g rest ih =>
      rw [findSig]
      have hg := h g (by simp)
      rw [if_pos (by omega)]
      exact ih (fun fn hm => h fn (List.mem_cons_of_mem g hm))

theorem pairwise_span_unique {fns : List FunctionSignature} {line : Int}
    (hpw : fns.Pairwise spanDisjoint) {a b : FunctionSignature}
    (ha : a ∈ fns) (hb : b ∈ fns)
    (hca : a.startLine ≤ line ∧ line ≤ a.endLine)
    (hcb : b.startLine ≤ line ∧ line ≤ b.endLine) : a = b := by
  induction fns with
  | nil => exact absurd ha (List.not_mem_nil a)
  | cons g rest ih =>
      rw [List.pairwise_cons] at hpw
      rcases List.mem_cons.mp ha with hag | hag
      · rcases List.mem_cons.mp hb with hbg | hbg
        · rw [hag, hbg]
        · subst hag
          have := hpw.1 b hbg
          unfold spanDisjoint at this
          omega
      · rcases List.mem_cons.mp hb with hbg | hbg
        · subst hbg
          have := hpw.1 a hag
          unfold spanDisjoint at this
          omega
        · exact ih hpw.2 hag hbg

/-- Claim C6: signature resolution returns none on an empty file path, a
non-positive line, an unreadable or unparseable file, or when no declared
function span contains the line; and when it returns a signature, that
signature belongs to an entry whose span contains the line, whose declared
name is a suffix of the candidate function name when one is provided, and
whose span is minimal among the entries containing the line (the Go parser
produces pairwise disjoint top-level spans, stated here as the Pairwise
hypothesis, so the containing entry is unique). -/
theorem claim_C6_signature_resolution :
    (∀ (env : ParseEnv) (line : Int) (cand : String),
      getSignatureForLocation env "" line cand = none) ∧
    (∀ (env : ParseEnv) (file : String) (line : Int) (cand : String),
      line ≤ 0 → getSignatureForLocation env file line cand = none) ∧
    (∀ (env : ParseEnv) (file : String) (line : Int) (cand : String),
      env file = none → getSignatureForLocation env file line cand = none) ∧
    (∀ (env : ParseEnv) (file : String) (line : Int) (cand : String)
      (fns : List FunctionSignature),
      parseFileSignatures env file = some fns →
      (∀ fn ∈ fns, ¬(fn.startLine ≤ line ∧ line ≤ fn.endLine)) →
      getSignatureForLocation env file line cand = none) ∧
    (∀ (env : ParseEnv) (file : String) (line : Int) (cand : String)
      (fns : List FunctionSignature) (fn : FunctionSignature),
      parseFileSignatures env file = some fns →
      fns.Pairwise spanDisjoint →
      getSignatureForLocation env file line cand = some fn →
      fn ∈ fns ∧ fn.startLine ≤ line ∧ line ≤ fn.endLine ∧
        (cand ≠ "" → strEnds cand fn.name = true) ∧
        (∀ g ∈ fns, g.startLine ≤ line → line ≤ g.endLine →
          fn.endLine - fn.startLine ≤ g.endLine - g.startLine)) := by
  refine ⟨?c1, ?c2, ?c3, ?c4, ?c5⟩
  case c1 =>
    intro env line cand
    simp [getSignatureForLocation]
  case c2 =>
    intro env file line cand hl
    simp [getSignatureForLocation, hl]
  case c3 =>
    intro env file line cand henv
    simp [getSignatureForLocation, parseFileSignatures, henv]
  case c4 =>
    intro env file line cand fns hparse hnone
    by_cases hcond : file = "" ∨ line ≤ 0
    · simp [getSignatureForLocation, hcond]
    · simp only [getSignatureForLocation, if_neg hcond, hparse]
      exact findSig_none hnone
  case c5 =>
    intro env file line cand fns fn hparse hpw hres
    by_cases hcond : file = "" ∨ line ≤ 0
    · rw [getSignatureForLocation, if_pos hcond] at hres
      exact absurd hres (by simp)
    · rw [getSignatureForLocation, if_neg hcond, hparse] at hres
      obtain ⟨hm, h1, h2, h3⟩ := findSig_some hres
      refine ⟨hm, h1, h2, h3, ?_⟩
      intro g hg hg1 hg2
      have hgeq : fn = g := pairwise_span_unique hpw hm hg ⟨h1, h2⟩ ⟨hg1, hg2⟩
      rw [hgeq]

/-- Claim C6, witness: resolving line two of a concrete parsed file with
the qualified candidate Type.Method yields the entry Method whose span
contains the line and whose declared name is a suffix of the candidate. -/
theorem claim_C6_witness :
    getSignatureForLocation exParseEnv "main.go" 2 "Type.Method" = some exSigMethod ∧
    exSigMethod ∈ [exSigMethod, exSigHelper] ∧
    exSigMethod.startLine ≤ 2 ∧ (2 : Int) ≤ exSigMethod.endLine ∧
    strEnds "Type.Method" exSigMethod.name = true := by
  have h := claim_C6_signature_resolution.2.2.2.2 exParseEnv "main.go" 2 "Type.Method"
    [exSigMethod, exSigHelper] exSigMethod rfl (by decide) rfl
  exact ⟨rfl, h.1, h.2.1, h.2.2.1, h.2.2.2.1 (by decide)⟩

/-- Claim C7: whenever tracing is globally disabled, `LogWithStack`
performs exactly the single backend call Log(level, message, args) with
the raw template and arguments the caller supplied — no runtime stack
capture and no file read occurs, and no stack-derived message is built. -/
theorem claim_C7_disabled_delegates :
    ∀ (w : EnhancedWorld) (cfg : DevTraceConfig) (opts : StackLoggerOptions)
      (gs : GlobalState) (now : Nat) (ctx : Carrier) (level message : String)
      (args : List LogVal),
      cfg.enabled = false →
      LogWithStack w cfg opts gs now ctx level message args
        = [Effect.logCall level message args] ∧
      (∀ p, Effect.fileRead p ∉ LogWithStack w cfg opts gs now ctx level message args) ∧
      Effect.runtimeCapture ∉ LogWithStack w cfg opts gs now ctx level message args := by
  intro w cfg opts gs now ctx level message args hoff
  have h : LogWithStack w cfg opts gs now ctx level message args
      = [Effect.logCall level message args] := by
    unfold LogWithStack
    rw [hoff]
    simp
  refine ⟨h, ?_, ?_⟩
  · intro p hp
    rw [h] at hp
    simp at hp
  · rw [h]
    simp

/-- Claim C7, witness: a concrete disabled configuration delegates the raw
template and argument list to the backend. -/
theorem claim_C7_witness :
    LogWithStack exWorld exCfgOff exOptsBig exGlobalNone 0 Carrier.noValue "INFO" "hello"
      [LogVal.plain 3]
      = [Effect.logCall "INFO" "hello" [LogVal.plain 3]] ∧
    Effect.runtimeCapture ∉ LogWithStack exWorld exCfgOff exOptsBig exGlobalNone 0
      Carrier.noValue "INFO" "hello" [LogVal.plain 3] := by
  have h := claim_C7_disabled_delegates exWorld exCfgOff exOptsBig exGlobalNone 0
    Carrier.noValue "INFO" "hello" [LogVal.plain 3] rfl
  exact ⟨h.1, h.2.2⟩

/-- Claim C8, as stated, is false on the code: with no installed global
context, the fallback path (FromContext followed by Enter) pushes the
frame onto a fresh detached context that `GetGlobalContext` returns
without installing; the global state is unchanged and the frame is not
visible in any subsequent fallback retrieval (GlobalStack, or FromContext
followed by Stack). -/
theorem claim_C8_counterexample :
    (refEnter exGlobalNone (fromContextRef Carrier.noValue exGlobalNone 0) exA1).1
      = exGlobalNone ∧
    GlobalStack (refEnter exGlobalNone (fromContextRef Carrier.noValue exGlobalNone 0)
      exA1).1 0 = [] ∧
    refStack (refEnter exGlobalNone (fromContextRef Carrier.noValue exGlobalNone 0) exA1).1
      (fromContextRef Carrier.noValue
        (refEnter exGlobalNone (fromContextRef Carrier.noValue exGlobalNone 0) exA1).1 0)
      = [] := by
  refine ⟨rfl, rfl, rfl⟩

/-- Claim C8, amended: once the global context has been installed
(`InitGlobalContext`, or any operation such as `GlobalEnter` that calls
it), the fallback operations act on that one process-wide context: a frame
pushed through the fallback (FromContext of a carrier without a value,
followed by Enter) is visible in a subsequent fallback retrieval
(GlobalStack, or FromContext followed by Stack). `GlobalEnter` itself
initializes the global context on first use, so a push through it is
always visible; but `GetGlobalContext` alone returns a fresh context
without installing it, so the chain FromContext-Enter on an uninitialized
global is lost. -/
theorem claim_C8_global_fallback_amended :
    ∀ (s : GlobalState) (g : TraceContext) (now : Nat) (f : Frame),
      s.globalContext = some g →
      fromContextRef Carrier.noValue s now = CtxRef.global ∧
      (refEnter s (fromContextRef Carrier.noValue s now) f).1.globalContext
        = some ⟨g.frames ++ [f], g.depth + 1, g.startAt⟩ ∧
      GlobalStack (refEnter s (fromContextRef Carrier.noValue s now) f).1 now
        = g.frames ++ [f] ∧
      refStack (refEnter s (fromContextRef Carrier.noValue s now) f).1
        (fromContextRef Carrier.noValue
          (refEnter s (fromContextRef Carrier.noValue s now) f).1 now)
        = g.frames ++ [f] ∧
      (∀ (s0 : GlobalState) (f0 : Frame) (n0 : Nat),
        GlobalStack (GlobalEnter s0 f0 n0) n0
          = (match s0.globalContext with
             | some g0 => g0.frames
             | none => []) ++ [f0]) := by
  intro s g now f hg
  have href : fromContextRef Carrier.noValue s now = CtxRef.global := by
    simp [fromContextRef, hg]
  have henter : (refEnter s (fromContextRef Carrier.noValue s now) f).1
      = ⟨some ⟨g.frames ++ [f], g.depth + 1, g.startAt⟩⟩ := by
    rw [href]
    simp [refEnter, tcEnter, hg]
  refine ⟨href, ?_, ?_, ?_, ?_⟩
  · rw [henter]
  · rw [henter]
    rfl
  · rw [henter]
    rfl
  · intro s0 f0 n0
    cases hs0 : s0.globalContext with
    | some g0 =>
        simp [GlobalEnter, InitGlobalContext, GlobalStack, tcEnter, tcStack, hs0]
    | none =>
        simp [GlobalEnter, InitGlobalContext, GlobalStack, tcEnter, tcStack,
          newTraceContext, hs0]

/-- Claim C8 amended, witness: with an installed global context holding
one frame, a push through the fallback is visible in GlobalStack. -/
theorem claim_C8_amended_witness :
    GlobalStack (refEnter exGlobalInit (fromContextRef Carrier.noValue exGlobalInit 7)
      exA1).1 7 = [exO1] ++ [exA1] := by
  have h := claim_C8_global_fallback_amended exGlobalInit ⟨[exO1], 1, 3⟩ 7 exA1 rfl
  exact h.2.2.1

/-- Claim C9: Leave pops the tail frame: on a non-empty stack the last
frame is removed, its end time is stamped with the current time, its
duration is set to endTime minus startTime only when the start time was
set, and the frame is returned; on an empty stack Leave returns none and
leaves the context unchanged. -/
theorem claim_C9_leave_pops_tail :
    ∀ (t : TraceContext) (now : Nat),
      (t.frames = [] → tcLeave (some t) now = (some t, none)) ∧
      (∀ (rest : List Frame) (fr : Frame), t.frames = rest ++ [fr] →
        tcLeave (some t) now
          = (some ⟨rest, t.depth - 1, t.startAt⟩,
             some ⟨fr.function, fr.signature, fr.file, fr.line, fr.args, fr.startTime,
               some now,
               match fr.startTime with
               | some st => (now : Int) - (st : Int)
               | none => fr.duration⟩)) := by
  intro t now
  constructor
  · intro he
    simp [tcLeave, he]
  · intro rest fr he
    simp [tcLeave, he, List.getLast?_concat, List.dropLast_concat, stampLeave]

/-- Claim C9, witness: leaving a two-frame stack at time 25 pops the tail
frame that started at time 10, stamping endTime 25 and duration 15. -/
theorem claim_C9_witness :
    tcLeave (some ⟨[exO1, exFrTimed], 2, 0⟩) 25
      = (some ⟨[exO1], 1, 0⟩,
         some ⟨"g", "", "g.go", 2, none, some 10, some 25, 15⟩) := by
  have h := (claim_C9_leave_pops_tail ⟨[exO1, exFrTimed], 2, 0⟩ 25).2 [exO1] exFrTimed rfl
  rw [h]
  decide

/-- Claim C10: every TraceContext operation is total at the public
interface: Enter on a nil context is a no-op, Leave and GetCurrentFrame on
a nil context return none, Stack on a nil context returns an empty
sequence, and FromContext of a nil carrier falls back to the global
context — the installed one when present, a fresh empty context otherwise,
never a nil context — so none of these calls dereferences nil. -/
theorem claim_C10_nil_safety :
    ∀ (f : Frame) (now : Nat) (s : GlobalState),
      tcEnter none f = none ∧
      tcLeave none now = (none, none) ∧
      tcStack none = [] ∧
      tcCurrentFrame none = none ∧
      (refRead s (fromContextRef Carrier.nilCtx s now)).isSome = true ∧
      (∀ g, s.globalContext = some g →
        refRead s (fromContextRef Carrier.nilCtx s now) = some g) := by
  intro f now s
  refine ⟨rfl, rfl, rfl, rfl, ?_, ?_⟩
  · cases hs : s.globalContext with
    | some g => simp [fromContextRef, refRead, hs]
    | none => simp [fromContextRef, refRead, hs]
  · intro g hg
    simp [fromContextRef, refRead, hg]

/-- Claim C10, witness: the nil-carrier fallback on a concrete installed
global context yields that context. -/
theorem claim_C10_witness :
    tcStack none = [] ∧
    refRead exGlobalInit (fromContextRef Carrier.nilCtx exGlobalInit 0)
      = some ⟨[exO1], 1, 3⟩ := by
  have h := claim_C10_nil_safety exA1 0 exGlobalInit
  exact ⟨h.2.2.1, h.2.2.2.2.2 ⟨[exO1], 1, 3⟩ rfl⟩

end Devtrace
